import Mathlib

/-!
# kenztech/notify: the Hub loop, the write pump and the Notification envelope

A shallow embedding of

* `models/notification.go`: the `Notification` struct, `Marshal`, `Unmarshal`;
* `messaging/broker.go`: the `Broker` interface, as a state machine that answers calls;
* `ws/hub.go`: one iteration of the `select` loop of `Hub.Run`, and runs of it;
* `ws/client.go`: `WritePump`.

In the Hub a Go string is a text (`String`) and a `[]byte` payload is the text it
holds (`List Char`): the loop only compares strings and puts them together. For
`Marshal` and `Unmarshal` together a Go string is its bytes (`RawNotification`).
`int64` is `Int`, and a Go `error` is `Option String` (`none` is `nil`).
-/

namespace Notify

/-! ## models/notification.go -/

/-- A Go `error` value: `none` is `nil`. -/
abbrev GoError := Option String

/-- The struct `models.Notification`. The field `Type` is spelled `Typ`.
`GroupIDs` is a list: a nil and an empty slice both have length zero, which is
all that `omitempty` and `len(message.GroupIDs) > 0` look at. -/
structure Notification where
  ID : String
  Typ : String
  Message : String
  TargetID : String
  GroupIDs : List String
  Timestamp : Int
deriving DecidableEq, Repr

/-! ### json.Marshal of a Notification

`Marshal` is `json.Marshal(n)`. The package encoding/json is Go's standard
library; what follows is its encoder for this struct: the fields in declaration
order under the names of their `json` tags, `omitempty`, and the string escapes
of `appendString` (as of Go 1.22, which writes `\b` and `\f` for U+0008 and
U+000C; earlier versions write `\u0008` and `\u000c`, which `unquote` reads
back the same). -/

/-- The double quote. -/
def dquote : Char := Char.ofNat 34

/-- The backslash. -/
def bslash : Char := Char.ofNat 92

/-- The table `hex = "0123456789abcdef"` of encoding/json. -/
def hexDigit (d : Nat) : Char :=
  if d < 10 then Char.ofNat (48 + d) else Char.ofNat (87 + d)

/-- The table `htmlSafeSet` of encoding/json on ASCII: every character from the
space on, except the double quote, `&`, `<`, `>` and the backslash. -/
def htmlSafe (c : Char) : Bool :=
  32 ≤ c.toNat && c.toNat != 34 && c.toNat != 38 && c.toNat != 60 && c.toNat != 62
    && c.toNat != 92

/-- One character of a string as encoding/json writes it between the quotes
(`appendString` with `escapeHTML = true`, the setting of `json.Marshal`). -/
def escapeChar (c : Char) : List Char :=
  if c.toNat < 128 then
    if htmlSafe c then [c]
    else if c.toNat = 92 ∨ c.toNat = 34 then [bslash, c]
    else if c.toNat = 8 then [bslash, 'b']
    else if c.toNat = 12 then [bslash, 'f']
    else if c.toNat = 10 then [bslash, 'n']
    else if c.toNat = 13 then [bslash, 'r']
    else if c.toNat = 9 then [bslash, 't']
    else [bslash, 'u', '0', '0', hexDigit (c.toNat / 16), hexDigit (c.toNat % 16)]
  else if c.toNat = 0x2028 ∨ c.toNat = 0x2029 then
    [bslash, 'u', '2', '0', '2', hexDigit (c.toNat % 16)]
  else [c]

/-- The characters of a string, escaped, without the surrounding quotes. -/
def escapeChars : List Char → List Char
  | [] => []
  | c :: cs => escapeChar c ++ escapeChars cs

/-- A JSON string literal: `appendString`. -/
def encodeString (s : String) : List Char :=
  dquote :: (escapeChars s.data ++ [dquote])

/-- The decimal digits of a natural number, most significant first, in front of
`acc` (`strconv.AppendUint`). The first argument bounds the number of digits. -/
def formatNat : Nat → Nat → List Char → List Char
  | 0, n, acc => Char.ofNat (48 + n % 10) :: acc
  | fuel + 1, n, acc =>
    if n < 10 then Char.ofNat (48 + n) :: acc
    else formatNat fuel (n / 10) (Char.ofNat (48 + n % 10) :: acc)

/-- The decimal form of an integer: `strconv.AppendInt(b, i, 10)`. -/
def encodeInt (i : Int) : List Char :=
  if i < 0 then '-' :: formatNat i.natAbs i.natAbs [] else formatNat i.natAbs i.natAbs []

/-- The elements of a JSON array of strings, separated by commas. -/
def encodeElems : List String → List Char
  | [] => []
  | [s] => encodeString s
  | s :: t => encodeString s ++ ',' :: encodeElems t

/-- A `[]string` value: `[` elements `]`. -/
def encodeStrings (l : List String) : List Char :=
  '[' :: (encodeElems l ++ [']'])

/-- The value of a struct field of `Notification`, by its Go type. -/
inductive FieldValue
  | str (s : String)
  | strs (l : List String)
  | int (i : Int)
deriving DecidableEq, Repr

/-- What `isEmptyValue` of encoding/json answers: a string or slice of length
zero, an integer that is zero. -/
def FieldValue.isEmpty : FieldValue → Bool
  | .str s => s.data.length == 0
  | .strs l => l.length == 0
  | .int i => i == 0

/-- The encoding of a field value. -/
def FieldValue.encode : FieldValue → List Char
  | .str s => encodeString s
  | .strs l => encodeStrings l
  | .int i => encodeInt i

/-- A struct field as encoding/json sees it: the name of its `json` tag, whether
the tag says `omitempty`, and the value. -/
structure Field where
  name : String
  omitEmpty : Bool
  value : FieldValue
deriving DecidableEq, Repr

/-- The fields of `Notification` in declaration order, with their tags
(notification.go, lines 8 to 15). -/
def Notification.structFields (n : Notification) : List Field :=
  [ ⟨"id", false, .str n.ID⟩,
    ⟨"type", false, .str n.Typ⟩,
    ⟨"message", false, .str n.Message⟩,
    ⟨"targetId", true, .str n.TargetID⟩,
    ⟨"groupIds", true, .strs n.GroupIDs⟩,
    ⟨"timestamp", false, .int n.Timestamp⟩ ]

/-- The fields that are written: a field tagged `omitempty` with an empty value
is skipped. -/
def emittedFields (fs : List Field) : List Field :=
  fs.filter (fun f => !(f.omitEmpty && f.value.isEmpty))

/-- One member of the object: the quoted name, a colon, the value. -/
def encodeMember (f : Field) : List Char :=
  encodeString f.name ++ ':' :: f.value.encode

/-- The members of the object, separated by commas. -/
def encodeMembers : List Field → List Char
  | [] => []
  | [f] => encodeMember f
  | f :: t => encodeMember f ++ ',' :: encodeMembers t

/-- The struct encoder of encoding/json: `{` members `}`. -/
def encodeStruct (fs : List Field) : List Char :=
  '{' :: (encodeMembers (emittedFields fs) ++ ['}'])

/-- `Notification.Marshal`: `json.Marshal(n)`. A struct of strings, a string
slice and an integer has no value that encoding/json refuses, so the error is
always `nil`. -/
def Notification.Marshal (n : Notification) : List Char × GoError :=
  (encodeStruct n.structFields, none)

/-! ### Go strings as bytes

A Go string is a sequence of bytes, and nothing makes it UTF-8: `SendNotification`
fills the strings of a notification from the percent-decoded path and query of the
request. `RawNotification` is the struct with its strings as bytes. `Notification`
above is the same struct where every string is a text, and `Notification.toRaw`
takes it to the bytes by UTF-8. encoding/json walks a string with
`utf8.DecodeRune`: at each position it finds a character, or a byte that starts no
encoding; `Marshal` writes U+FFFD, escaped, for such a byte, and `Unmarshal` reads
such a byte as U+FFFD. -/

/-- The function `utf8.AppendRune`: the UTF-8 bytes of a character. -/
def encodeRune (c : Char) : List UInt8 :=
  if c.toNat < 0x80 then [UInt8.ofNat c.toNat]
  else if c.toNat < 0x800 then
    [UInt8.ofNat (0xC0 + c.toNat / 64), UInt8.ofNat (0x80 + c.toNat % 64)]
  else if c.toNat < 0x10000 then
    [UInt8.ofNat (0xE0 + c.toNat / 4096), UInt8.ofNat (0x80 + c.toNat / 64 % 64),
      UInt8.ofNat (0x80 + c.toNat % 64)]
  else
    [UInt8.ofNat (0xF0 + c.toNat / 262144), UInt8.ofNat (0x80 + c.toNat / 4096 % 64),
      UInt8.ofNat (0x80 + c.toNat / 64 % 64), UInt8.ofNat (0x80 + c.toNat % 64)]

/-- The UTF-8 bytes of a text. -/
def utf8 : List Char → List UInt8
  | [] => []
  | c :: t => encodeRune c ++ utf8 t

/-- A continuation byte: from 0x80 to 0xBF. -/
def isCont (b : UInt8) : Bool := 0x80 ≤ b.toNat && b.toNat ≤ 0xBF

/-- The function `utf8.DecodeRune` where it finds an encoding at the head of the
bytes: the character and the bytes after it. `none` where Go answers
`(RuneError, 1)`: the first byte starts no encoding (a continuation byte, 0xC0,
0xC1, 0xF5 and above, a sequence cut short, a second byte outside the range its
first byte accepts, which rules out overlong forms, surrogates and values above
U+10FFFF). -/
def decodeRune : List UInt8 → Option (Char × List UInt8)
  | [] => none
  | b0 :: rest =>
    if b0.toNat < 0x80 then some (Char.ofNat b0.toNat, rest)
    else if b0.toNat < 0xC2 then none
    else if b0.toNat < 0xE0 then
      match rest with
      | b1 :: r =>
        if isCont b1 then
          some (Char.ofNat ((b0.toNat - 0xC0) * 64 + (b1.toNat - 0x80)), r)
        else none
      | _ => none
    else if b0.toNat < 0xF0 then
      match rest with
      | b1 :: b2 :: r =>
        if (if b0.toNat = 0xE0 then 0xA0 else 0x80) ≤ b1.toNat ∧
            b1.toNat ≤ (if b0.toNat = 0xED then 0x9F else 0xBF) ∧ isCont b2 = true then
          some (Char.ofNat ((b0.toNat - 0xE0) * 4096 + (b1.toNat - 0x80) * 64 +
            (b2.toNat - 0x80)), r)
        else none
      | _ => none
    else if b0.toNat < 0xF5 then
      match rest with
      | b1 :: b2 :: b3 :: r =>
        if (if b0.toNat = 0xF0 then 0x90 else 0x80) ≤ b1.toNat ∧
            b1.toNat ≤ (if b0.toNat = 0xF4 then 0x8F else 0xBF) ∧ isCont b2 = true ∧
            isCont b3 = true then
          some (Char.ofNat ((b0.toNat - 0xF0) * 262144 + (b1.toNat - 0x80) * 4096 +
            (b2.toNat - 0x80) * 64 + (b3.toNat - 0x80)), r)
        else none
      | _ => none
    else none

/-- What `utf8.DecodeRune` finds at a position of a string: a character, or a
byte that starts no encoding. -/
inductive Rune
  | valid (c : Char)
  | invalid (b : UInt8)
deriving DecidableEq, Repr

/-- A string walked with `utf8.DecodeRune` from its first byte, as encoding/json
walks it. The first argument bounds the number of steps; the length is enough. -/
def decodeRunes : Nat → List UInt8 → List Rune
  | 0, _ => []
  | _ + 1, [] => []
  | fuel + 1, b0 :: rest =>
    match decodeRune (b0 :: rest) with
    | some (c, r) => Rune.valid c :: decodeRunes fuel r
    | none => Rune.invalid b0 :: decodeRunes fuel rest

/-- The runes of a string. -/
def runes (bs : List UInt8) : List Rune := decodeRunes bs.length bs

/-- The text the decoder reads in bytes: a byte that starts no encoding counts as
U+FFFD. -/
def decodeText (bs : List UInt8) : List Char :=
  (runes bs).map (fun u => match u with
    | Rune.valid c => c
    | Rune.invalid _ => Char.ofNat 0xFFFD)

/-- The struct `models.Notification` with its strings as Go holds them: bytes. -/
structure RawNotification where
  ID : List UInt8
  Typ : List UInt8
  Message : List UInt8
  TargetID : List UInt8
  GroupIDs : List (List UInt8)
  Timestamp : Int
deriving DecidableEq, Repr

/-- The bytes of a notification whose strings are texts. -/
def Notification.toRaw (t : Notification) : RawNotification :=
  ⟨utf8 t.ID.data, utf8 t.Typ.data, utf8 t.Message.data, utf8 t.TargetID.data,
    t.GroupIDs.map (fun g => utf8 g.data), t.Timestamp⟩

/-- A valid notification: every string is UTF-8, that is, the bytes of a text, and
the timestamp is an `int64`. -/
def RawNotification.Valid (n : RawNotification) : Prop :=
  ∃ t : Notification, n = t.toRaw ∧
    -(2 : Int) ^ 63 ≤ t.Timestamp ∧ t.Timestamp < (2 : Int) ^ 63

/-- One rune of a string as `appendString` writes it between the quotes: a
character as `escapeChar` has it, and the six characters of the escape of U+FFFD
for a byte that starts no encoding. -/
def escapeRune : Rune → List Char
  | Rune.valid c => escapeChar c
  | Rune.invalid _ => [bslash, 'u', 'f', 'f', 'f', 'd']

/-- The runes of a string, escaped, without the surrounding quotes. -/
def escapeRunes : List Rune → List Char
  | [] => []
  | u :: us => escapeRune u ++ escapeRunes us

/-- A JSON string literal for a Go string: `appendString`. -/
def encodeBytes (bs : List UInt8) : List Char :=
  dquote :: (escapeRunes (runes bs) ++ [dquote])

/-- The elements of a JSON array of Go strings, separated by commas. -/
def encodeBytesElems : List (List UInt8) → List Char
  | [] => []
  | [s] => encodeBytes s
  | s :: t => encodeBytes s ++ ',' :: encodeBytesElems t

/-- A `[]string` value: `[` elements `]`. -/
def encodeBytesList (l : List (List UInt8)) : List Char :=
  '[' :: (encodeBytesElems l ++ [']'])

/-- The value of a struct field of `RawNotification`, by its Go type. -/
inductive RawValue
  | str (s : List UInt8)
  | strs (l : List (List UInt8))
  | int (i : Int)
deriving DecidableEq, Repr

/-- What `isEmptyValue` of encoding/json answers: a string or slice of length
zero, an integer that is zero. -/
def RawValue.isEmpty : RawValue → Bool
  | .str s => s.length == 0
  | .strs l => l.length == 0
  | .int i => i == 0

/-- The encoding of a field value. -/
def RawValue.encode : RawValue → List Char
  | .str s => encodeBytes s
  | .strs l => encodeBytesList l
  | .int i => encodeInt i

/-- A struct field as encoding/json sees it: the name of its `json` tag, whether
the tag says `omitempty`, and the value. -/
structure RawField where
  name : String
  omitEmpty : Bool
  value : RawValue
deriving DecidableEq, Repr

/-- The fields of `Notification` in declaration order, with their tags
(notification.go, lines 8 to 15). -/
def RawNotification.structFields (n : RawNotification) : List RawField :=
  [ ⟨"id", false, .str n.ID⟩,
    ⟨"type", false, .str n.Typ⟩,
    ⟨"message", false, .str n.Message⟩,
    ⟨"targetId", true, .str n.TargetID⟩,
    ⟨"groupIds", true, .strs n.GroupIDs⟩,
    ⟨"timestamp", false, .int n.Timestamp⟩ ]

/-- The fields that are written: a field tagged `omitempty` with an empty value
is skipped. -/
def emittedRawFields (fs : List RawField) : List RawField :=
  fs.filter (fun f => !(f.omitEmpty && f.value.isEmpty))

/-- One member of the object: the quoted name, a colon, the value. -/
def encodeRawMember (f : RawField) : List Char :=
  encodeString f.name ++ ':' :: f.value.encode

/-- The members of the object, separated by commas. -/
def encodeRawMembers : List RawField → List Char
  | [] => []
  | [f] => encodeRawMember f
  | f :: t => encodeRawMember f ++ ',' :: encodeRawMembers t

/-- The struct encoder of encoding/json: `{` members `}`. -/
def encodeRawStruct (fs : List RawField) : List Char :=
  '{' :: (encodeRawMembers (emittedRawFields fs) ++ ['}'])

/-- The value of a field whose strings are texts, in bytes. -/
def FieldValue.toRaw : FieldValue → RawValue
  | .str s => .str (utf8 s.data)
  | .strs l => .strs (l.map (fun g => utf8 g.data))
  | .int i => .int i

/-- A field whose strings are texts, in bytes. -/
def Field.toRaw (f : Field) : RawField := ⟨f.name, f.omitEmpty, f.value.toRaw⟩

/-- `Notification.Marshal` on the struct as Go holds it: `json.Marshal(n)`, the
bytes of the JSON text. The error is always `nil`. -/
def RawNotification.Marshal (n : RawNotification) : List UInt8 × GoError :=
  (utf8 (encodeRawStruct n.structFields), none)

/-! ### json.Unmarshal into a Notification

`Unmarshal` is `json.Unmarshal(data, n)`. The package encoding/json is Go's
standard library; what follows is its decoder for a pointer to this struct, on the
text of the bytes (`decodeText`): the
JSON grammar of its scanner, `unquote` for strings, `strconv.ParseInt` for the
`int64`, the matching of keys with field names, and the `UnmarshalTypeError` that
is saved while decoding goes on. `json.Unmarshal` first checks the whole input
against the grammar and then decodes; here one pass does both, and a syntax error
anywhere gives `none`, upon which `Unmarshal` leaves the receiver as it was. -/

/-- The white space of JSON: space, tab, carriage return, line feed. -/
def isSpace (c : Char) : Bool :=
  c.toNat == 32 || c.toNat == 9 || c.toNat == 13 || c.toNat == 10

/-- Skip white space. -/
def skipSpace : List Char → List Char
  | [] => []
  | c :: cs => if isSpace c then skipSpace cs else c :: cs

/-- The value of a hexadecimal digit, in either case. -/
def hexVal (c : Char) : Option Nat :=
  if 48 ≤ c.toNat ∧ c.toNat ≤ 57 then some (c.toNat - 48)
  else if 97 ≤ c.toNat ∧ c.toNat ≤ 102 then some (c.toNat - 87)
  else if 65 ≤ c.toNat ∧ c.toNat ≤ 70 then some (c.toNat - 55)
  else none

/-- The function `getu4` of encoding/json: the code unit of a `\uXXXX` escape at
the head of the text, and the text after it. -/
def getu4 : List Char → Option (Nat × List Char)
  | b :: u :: h1 :: h2 :: h3 :: h4 :: rest =>
    if b.toNat = 92 ∧ u.toNat = 117 then
      match hexVal h1, hexVal h2, hexVal h3, hexVal h4 with
      | some x1, some x2, some x3, some x4 => some (((x1 * 16 + x2) * 16 + x3) * 16 + x4, rest)
      | _, _, _, _ => none
    else none
  | _ => none

/-- Put a character in front of a decoded string. -/
def consChar (c : Char) : Option (List Char × List Char) → Option (List Char × List Char)
  | none => none
  | some (s, rest) => some (c :: s, rest)

/-- The character a one-letter escape stands for: the quote, the backslash and the
slash themselves, and `b`, `f`, `n`, `r`, `t`. -/
def unescape (e : Char) : Option Char :=
  if e.toNat = 34 ∨ e.toNat = 92 ∨ e.toNat = 47 then some e
  else if e.toNat = 98 then some (Char.ofNat 8)
  else if e.toNat = 102 then some (Char.ofNat 12)
  else if e.toNat = 110 then some (Char.ofNat 10)
  else if e.toNat = 114 then some (Char.ofNat 13)
  else if e.toNat = 116 then some (Char.ofNat 9)
  else none

/-- The text of a JSON string after its opening quote: the decoded string and the
text after the closing quote (the scanner's string states and `unquote`). A
control character is refused; a `\u` escape that is half of a surrogate pair
without its other half becomes U+FFFD. The first argument bounds the number of
steps; the length of the text is enough. -/
def unquote : Nat → List Char → Option (List Char × List Char)
  | 0, _ => none
  | _ + 1, [] => none
  | fuel + 1, c :: cs =>
    if c.toNat = 34 then some ([], cs)
    else if c.toNat = 92 then
      match cs with
      | [] => none
      | e :: r =>
        if e.toNat = 117 then
          match getu4 (c :: cs) with
          | none => none
          | some (rr, r1) =>
            if 0xD800 ≤ rr ∧ rr < 0xE000 then
              match getu4 r1 with
              | some (rr1, r2) =>
                if rr < 0xDC00 ∧ 0xDC00 ≤ rr1 ∧ rr1 < 0xE000 then
                  consChar (Char.ofNat ((rr - 0xD800) * 1024 + (rr1 - 0xDC00) + 0x10000))
                    (unquote fuel r2)
                else consChar (Char.ofNat 0xFFFD) (unquote fuel r1)
              | none => consChar (Char.ofNat 0xFFFD) (unquote fuel r1)
            else consChar (Char.ofNat rr) (unquote fuel r1)
        else
          match unescape e with
          | none => none
          | some ch => consChar ch (unquote fuel r)
    else if c.toNat < 32 then none
    else consChar c (unquote fuel cs)

/-- A decimal digit. -/
def isDigit (c : Char) : Bool := 48 ≤ c.toNat && c.toNat ≤ 57

/-- The optional fraction of a number: a dot and at least one digit. -/
def scanFrac : List Char → Option (List Char × List Char)
  | [] => some ([], [])
  | c :: r =>
    if c.toNat = 46 then
      if r.takeWhile isDigit = [] then none
      else some (c :: r.takeWhile isDigit, r.dropWhile isDigit)
    else some ([], c :: r)

/-- The digits of an exponent, after its optional sign: at least one. -/
def scanExpDigits (pre r : List Char) : Option (List Char × List Char) :=
  if r.takeWhile isDigit = [] then none
  else some (pre ++ r.takeWhile isDigit, r.dropWhile isDigit)

/-- The optional exponent of a number: `e` or `E`, an optional sign, digits. -/
def scanExp : List Char → Option (List Char × List Char)
  | [] => some ([], [])
  | c :: r =>
    if c.toNat = 101 ∨ c.toNat = 69 then
      match r with
      | [] => none
      | g :: r1 =>
        if g.toNat = 43 ∨ g.toNat = 45 then scanExpDigits [c, g] r1
        else scanExpDigits [c] r
    else some ([], c :: r)

/-- The number literal, after its sign: `0` or a digit from 1 to 9 and more
digits, then the optional fraction and exponent. -/
def scanUnsigned : List Char → Option (List Char × List Char)
  | [] => none
  | d :: r =>
    if isDigit d then
      let ip : List Char × List Char :=
        if d.toNat = 48 then ([d], r) else (d :: r.takeWhile isDigit, r.dropWhile isDigit)
      match scanFrac ip.2 with
      | none => none
      | some (fp, r1) =>
        match scanExp r1 with
        | none => none
        | some (ep, r2) => some (ip.1 ++ fp ++ ep, r2)
    else none

/-- A JSON number at the head of the text: its literal and the text after it. -/
def scanNumber : List Char → Option (List Char × List Char)
  | [] => none
  | c :: r =>
    if c.toNat = 45 then
      match scanUnsigned r with
      | none => none
      | some (lit, rest) => some (c :: lit, rest)
    else scanUnsigned (c :: r)

/-- The value of a sequence of decimal digits. -/
def digitsVal (ds : List Char) : Nat :=
  ds.foldl (fun acc c => acc * 10 + (c.toNat - 48)) 0

/-- `strconv.ParseInt(lit, 10, 64)` on a JSON number literal: an optional minus
and digits only, and a value that fits `int64`. -/
def parseInt64 : List Char → Option Int
  | [] => none
  | c :: r =>
    if c.toNat = 45 then
      if r ≠ [] ∧ r.all isDigit = true ∧ digitsVal r ≤ 2 ^ 63 then some (-(digitsVal r : Int))
      else none
    else if (c :: r).all isDigit = true ∧ digitsVal (c :: r) < 2 ^ 63 then
      some (digitsVal (c :: r) : Int)
    else none

/-- The text starts with the literal `lit`: the text after it. -/
def expectLit (lit : List Char) (cs : List Char) : Option (List Char) :=
  if lit.isPrefixOf cs then some (cs.drop lit.length) else none

/-- The nesting limit of the scanner, `maxNestingDepth`. -/
def maxNestingDepth : Nat := 10000

mutual
/-- Skip one JSON value of any kind, checking its syntax; `depth` counts the
arrays and objects that are open. The first argument bounds the number of steps;
the length of the text is enough. -/
def skipValue : Nat → Nat → List Char → Option (List Char)
  | 0, _, _ => none
  | _ + 1, _, [] => none
  | fuel + 1, depth, c :: r =>
    if c.toNat = 34 then (unquote r.length r).map (fun p => p.2)
    else if c.toNat = 91 then
      if depth + 1 > maxNestingDepth then none
      else
        match skipSpace r with
        | [] => none
        | d :: r1 => if d.toNat = 93 then some r1 else skipElems fuel (depth + 1) (d :: r1)
    else if c.toNat = 123 then
      if depth + 1 > maxNestingDepth then none
      else
        match skipSpace r with
        | [] => none
        | d :: r1 => if d.toNat = 125 then some r1 else skipMembers fuel (depth + 1) (d :: r1)
    else if c.toNat = 116 then expectLit ['t', 'r', 'u', 'e'] (c :: r)
    else if c.toNat = 102 then expectLit ['f', 'a', 'l', 's', 'e'] (c :: r)
    else if c.toNat = 110 then expectLit ['n', 'u', 'l', 'l'] (c :: r)
    else (scanNumber (c :: r)).map (fun p => p.2)
/-- Skip the elements of an array up to and with its closing bracket. -/
def skipElems : Nat → Nat → List Char → Option (List Char)
  | 0, _, _ => none
  | fuel + 1, depth, cs =>
    match skipValue fuel depth cs with
    | none => none
    | some r =>
      match skipSpace r with
      | [] => none
      | d :: r1 =>
        if d.toNat = 44 then skipElems fuel depth (skipSpace r1)
        else if d.toNat = 93 then some r1
        else none
/-- Skip the members of an object up to and with its closing brace. -/
def skipMembers : Nat → Nat → List Char → Option (List Char)
  | 0, _, _ => none
  | _ + 1, _, [] => none
  | fuel + 1, depth, q :: r =>
    if q.toNat = 34 then
      match unquote r.length r with
      | none => none
      | some (_, r1) =>
        match skipSpace r1 with
        | [] => none
        | colon :: r2 =>
          if colon.toNat = 58 then
            match skipValue fuel depth (skipSpace r2) with
            | none => none
            | some r3 =>
              match skipSpace r3 with
              | [] => none
              | d :: r4 =>
                if d.toNat = 44 then skipMembers fuel depth (skipSpace r4)
                else if d.toNat = 125 then some r4
                else none
          else none
    else none
end

/-- What a value that does not fit the Go type is reported as in the
`UnmarshalTypeError`, by its first character. -/
def valueKind (c : Char) : String :=
  if c.toNat = 34 then "string"
  else if c.toNat = 91 then "array"
  else if c.toNat = 123 then "object"
  else if c.toNat = 116 ∨ c.toNat = 102 then "bool"
  else "number"

/-- Decode a value into a Go `string` that holds `cur`: a JSON string is stored,
as the UTF-8 bytes of its text, `null` leaves `cur`, and any other value is
skipped and reported as an `UnmarshalTypeError`. The result is the string, the
error, the text after. -/
def decodeStringValue (depth : Nat) (cur : List UInt8) :
    List Char → Option (List UInt8 × GoError × List Char)
  | [] => none
  | c :: r =>
    if c.toNat = 34 then
      (unquote r.length r).map (fun p => (utf8 p.1, none, p.2))
    else if c.toNat = 110 then
      (expectLit ['n', 'u', 'l', 'l'] (c :: r)).map (fun rest => (cur, none, rest))
    else
      (skipValue (c :: r).length depth (c :: r)).map
        (fun rest => (cur, some ("json: cannot unmarshal " ++ valueKind c ++ " into string"),
          rest))

/-- Decode a value into a Go `int64` that holds `cur`: a number that
`strconv.ParseInt` accepts is stored, `null` leaves `cur`, anything else is
skipped and reported. -/
def decodeIntValue (depth : Nat) (cur : Int) :
    List Char → Option (Int × GoError × List Char)
  | [] => none
  | c :: r =>
    if c.toNat = 110 then
      (expectLit ['n', 'u', 'l', 'l'] (c :: r)).map (fun rest => (cur, none, rest))
    else if c.toNat = 34 ∨ c.toNat = 91 ∨ c.toNat = 123 ∨ c.toNat = 116 ∨ c.toNat = 102 then
      (skipValue (c :: r).length depth (c :: r)).map
        (fun rest => (cur, some ("json: cannot unmarshal " ++ valueKind c ++ " into int64"),
          rest))
    else
      match scanNumber (c :: r) with
      | none => none
      | some (lit, rest) =>
        match parseInt64 lit with
        | some i => some (i, none, rest)
        | none => some (cur, some "json: cannot unmarshal number into int64", rest)

/-- The first error is kept (`saveError`). -/
def saveError (saved err : GoError) : GoError :=
  match saved with
  | none => err
  | some e => some e

/-- The elements of an array decoded into a `[]string` whose backing array holds
`backing` (the elements of the slice and then what lies beyond its length, inside
its capacity): element `i` is decoded into `backing[i]`, or into `""` past the
capacity, where the slice is grown; `acc` holds the elements decoded so far. Up to
and with the closing bracket. -/
def decodeElems : Nat → Nat → List (List UInt8) → List (List UInt8) → GoError → List Char →
    Option (List (List UInt8) × GoError × List Char)
  | 0, _, _, _, _, _ => none
  | fuel + 1, depth, backing, acc, err, cs =>
    match decodeStringValue depth (backing.getD acc.length []) cs with
    | none => none
    | some (s, e, r) =>
      match skipSpace r with
      | [] => none
      | d :: r1 =>
        if d.toNat = 44 then
          decodeElems fuel depth backing (acc ++ [s]) (saveError err e) (skipSpace r1)
        else if d.toNat = 93 then some (acc ++ [s], saveError err e, r1)
        else none

/-- Decode a value into a Go `[]string` that holds `cur`, with `spare` beyond its
length inside its capacity: an array is decoded element by element and the slice
is cut to the number of elements, what lies beyond staying in the backing array;
the empty array gives a new empty slice; `null` gives the nil slice; anything else
is skipped and reported. The result is the slice with what lies beyond it, the
error, the text after. -/
def decodeStringsValue (depth : Nat) (cur spare : List (List UInt8)) :
    List Char → Option ((List (List UInt8) × List (List UInt8)) × GoError × List Char)
  | [] => none
  | c :: r =>
    if c.toNat = 91 then
      if depth + 1 > maxNestingDepth then none
      else
        match skipSpace r with
        | [] => none
        | d :: r1 =>
          if d.toNat = 93 then some (([], []), none, r1)
          else
            (decodeElems (d :: r1).length (depth + 1) (cur ++ spare) [] none (d :: r1)).map
              (fun p => ((p.1, (cur ++ spare).drop p.1.length), p.2.1, p.2.2))
    else if c.toNat = 110 then
      (expectLit ['n', 'u', 'l', 'l'] (c :: r)).map (fun rest => (([], []), none, rest))
    else
      (skipValue (c :: r).length depth (c :: r)).map
        (fun rest => ((cur, spare),
          some ("json: cannot unmarshal " ++ valueKind c ++ " into []string"), rest))

/-- The fields of `Notification`. -/
inductive FieldId
  | ID | Typ | Message | TargetID | GroupIDs | Timestamp
deriving DecidableEq, Repr

/-- The names of the `json` tags (notification.go, lines 9 to 14). -/
def fieldNames : List (String × FieldId) :=
  [("id", .ID), ("type", .Typ), ("message", .Message), ("targetId", .TargetID),
   ("groupIds", .GroupIDs), ("timestamp", .Timestamp)]

/-- The function `foldRune` on the characters that matter for names in ASCII: a
small letter folds to its capital, and so do the long s (U+017F) and the Kelvin
sign (U+212A), the only characters outside ASCII that fold into it. -/
def foldRune (c : Char) : Char :=
  if 97 ≤ c.toNat ∧ c.toNat ≤ 122 then Char.ofNat (c.toNat - 32)
  else if c.toNat = 0x17F then 'S'
  else if c.toNat = 0x212A then 'K'
  else c

/-- The field a key of the object names: the field with exactly this name, or
else the one with the same name up to case. -/
def lookupField (key : List Char) : Option FieldId :=
  match fieldNames.find? (fun p => p.1.data = key) with
  | some p => some p.2
  | none =>
    (fieldNames.find? (fun p => p.1.data.map foldRune = key.map foldRune)).map (fun p => p.2)

/-- The decoder at work: the receiver as filled so far, what the backing array of
its `GroupIDs` holds beyond the length of the slice, and `d.savedError`. -/
structure Dec where
  n : RawNotification
  spare : List (List UInt8)
  err : GoError
deriving DecidableEq, Repr

/-- Decode the value of a member into the field its key names; the value of a key
that names no field is skipped. -/
def decodeField (depth : Nat) (d : Dec) (f : Option FieldId) (cs : List Char) :
    Option (Dec × List Char) :=
  match f with
  | none => (skipValue cs.length depth cs).map (fun rest => (d, rest))
  | some .ID => (decodeStringValue depth d.n.ID cs).map
      (fun p => (⟨{ d.n with ID := p.1 }, d.spare, saveError d.err p.2.1⟩, p.2.2))
  | some .Typ => (decodeStringValue depth d.n.Typ cs).map
      (fun p => (⟨{ d.n with Typ := p.1 }, d.spare, saveError d.err p.2.1⟩, p.2.2))
  | some .Message => (decodeStringValue depth d.n.Message cs).map
      (fun p => (⟨{ d.n with Message := p.1 }, d.spare, saveError d.err p.2.1⟩, p.2.2))
  | some .TargetID => (decodeStringValue depth d.n.TargetID cs).map
      (fun p => (⟨{ d.n with TargetID := p.1 }, d.spare, saveError d.err p.2.1⟩, p.2.2))
  | some .GroupIDs => (decodeStringsValue depth d.n.GroupIDs d.spare cs).map
      (fun p => (⟨{ d.n with GroupIDs := p.1.1 }, p.1.2, saveError d.err p.2.1⟩, p.2.2))
  | some .Timestamp => (decodeIntValue depth d.n.Timestamp cs).map
      (fun p => (⟨{ d.n with Timestamp := p.1 }, d.spare, saveError d.err p.2.1⟩, p.2.2))

/-- The members of the object, from the opening quote of a key up to and with the
closing brace. -/
def decodeMembers : Nat → Dec → List Char → Option (Dec × List Char)
  | 0, _, _ => none
  | _ + 1, _, [] => none
  | fuel + 1, d, q :: r =>
    if q.toNat = 34 then
      match unquote r.length r with
      | none => none
      | some (key, r1) =>
        match skipSpace r1 with
        | [] => none
        | colon :: r2 =>
          if colon.toNat = 58 then
            match decodeField 1 d (lookupField key) (skipSpace r2) with
            | none => none
            | some (d1, r3) =>
              match skipSpace r3 with
              | [] => none
              | e :: r4 =>
                if e.toNat = 44 then decodeMembers fuel d1 (skipSpace r4)
                else if e.toNat = 125 then some (d1, r4)
                else none
          else none
    else none

/-- The top-level value decoded into the struct: an object fills the fields,
`null` changes nothing, any other value is skipped and reported. Only white space
may follow. `none` is a syntax error. -/
def decodeTop (n : RawNotification) (spare : List (List UInt8)) (data : List Char) :
    Option (RawNotification × GoError) :=
  match skipSpace data with
  | [] => none
  | c :: r =>
    if c.toNat = 123 then
      match skipSpace r with
      | [] => none
      | e :: r1 =>
        match (if e.toNat = 125 then some ((⟨n, spare, none⟩ : Dec), r1)
               else decodeMembers (e :: r1).length ⟨n, spare, none⟩ (e :: r1)) with
        | none => none
        | some (d, rest) => if skipSpace rest = [] then some (d.n, d.err) else none
    else
      match skipValue (c :: r).length 0 (c :: r) with
      | none => none
      | some rest =>
        if skipSpace rest = [] then
          some (n, if c.toNat = 110 then none
            else some ("json: cannot unmarshal " ++ valueKind c ++ " into Notification"))
        else none

/-- `Notification.Unmarshal`: `json.Unmarshal(data, n)`, on the receiver `n` as Go
holds it; `spare` is what the backing array of `n.GroupIDs` holds beyond the
length of the slice (nothing for a nil slice). The result is the receiver after
the call and the error returned. On a syntax error the receiver is as before. -/
def RawNotification.Unmarshal (n : RawNotification) (spare : List (List UInt8))
    (data : List UInt8) : RawNotification × GoError :=
  match decodeTop n spare (decodeText data) with
  | none => (n, some "json: syntax error")
  | some r => r

/-- The zero value of `Notification`: what `var n models.Notification` declares
in `ReadPump` before `n.Unmarshal(msg)`. Its `GroupIDs` is the nil slice. -/
def RawNotification.zero : RawNotification := ⟨[], [], [], [], [], 0⟩

/-- A character that ends a number literal: no digit, dot or exponent mark. -/
def endsNumber (e : Char) : Prop :=
  isDigit e = false ∧ e.toNat ≠ 46 ∧ e.toNat ≠ 101 ∧ e.toNat ≠ 69

/-- What decoding a member that fits its field does to the decoder: the value is
stored in the field the name stands for, a text as its UTF-8 bytes. -/
def applyField (d : Dec) (f : Field) : Dec :=
  match lookupField f.name.data, f.value with
  | some .ID, .str s => ⟨{ d.n with ID := utf8 s.data }, d.spare, d.err⟩
  | some .Typ, .str s => ⟨{ d.n with Typ := utf8 s.data }, d.spare, d.err⟩
  | some .Message, .str s => ⟨{ d.n with Message := utf8 s.data }, d.spare, d.err⟩
  | some .TargetID, .str s => ⟨{ d.n with TargetID := utf8 s.data }, d.spare, d.err⟩
  | some .GroupIDs, .strs l =>
    ⟨{ d.n with GroupIDs := l.map (fun s => utf8 s.data) },
      if l = [] then [] else (d.n.GroupIDs ++ d.spare).drop l.length, d.err⟩
  | some .Timestamp, .int i => ⟨{ d.n with Timestamp := i }, d.spare, d.err⟩
  | _, _ => d

/-- The member fits its field: the name stands for a field of `Notification`, the
value has the Go type of that field, and an integer is an `int64`. -/
def Field.fits (f : Field) : Prop :=
  match lookupField f.name.data, f.value with
  | some .ID, .str _ => True
  | some .Typ, .str _ => True
  | some .Message, .str _ => True
  | some .TargetID, .str _ => True
  | some .GroupIDs, .strs _ => True
  | some .Timestamp, .int i => -(2 : Int) ^ 63 ≤ i ∧ i < (2 : Int) ^ 63
  | _, _ => False

/-- The members of a JSON object as the grammar reads them from the text, from the
opening quote of a key up to and with the closing brace: each key, decoded, with
the text of its value. With them comes the text after the brace. -/
def scanMembers : Nat → List Char → Option (List (List Char × List Char) × List Char)
  | 0, _ => none
  | _ + 1, [] => none
  | fuel + 1, q :: r =>
    if q.toNat = 34 then
      match unquote r.length r with
      | none => none
      | some (key, r1) =>
        match skipSpace r1 with
        | [] => none
        | colon :: r2 =>
          if colon.toNat = 58 then
            match skipValue (skipSpace r2).length 1 (skipSpace r2) with
            | none => none
            | some r3 =>
              match skipSpace r3 with
              | [] => none
              | e :: r4 =>
                if e.toNat = 44 then
                  (scanMembers fuel (skipSpace r4)).map (fun p =>
                    ((key, (skipSpace r2).take ((skipSpace r2).length - r3.length)) :: p.1,
                      p.2))
                else if e.toNat = 125 then
                  some ([(key, (skipSpace r2).take ((skipSpace r2).length - r3.length))], r4)
                else none
          else none
    else none

/-- The text read as one JSON object: its members in order, each key with the text
of its value. `none` when the text is not a JSON object. -/
def objectMembers (data : List Char) : Option (List (List Char × List Char)) :=
  match skipSpace data with
  | [] => none
  | c :: r =>
    if c.toNat = 123 then
      match skipSpace r with
      | [] => none
      | e :: r1 =>
        if e.toNat = 125 then (if skipSpace r1 = [] then some [] else none)
        else
          match scanMembers (e :: r1).length (e :: r1) with
          | none => none
          | some (ms, rest) => if skipSpace rest = [] then some ms else none
    else none

/-! ## messaging/broker.go -/

/-- The interface `messaging.Broker`, seen from the Hub: an implementation has a
state of type `β`, and each method answers from the state and moves it.
`Subscribe` is called by `ReadPump` only and is left out. -/
structure Broker (β : Type) where
  Publish : β → String → List Char → GoError × β
  TrackUser : β → String → List String → GoError × β
  UntrackUser : β → String → List String → GoError × β
  GetGroupMembers : β → String → (List String × GoError) × β
  GetActiveUsers : β → (List String × GoError) × β

/-! ## ws/client.go and ws/hub.go -/

/-- A `*Client`. A pointer is equal to itself only, so `addr` stands for the
address: two connections of one user with the same groups differ in it. The fields
`userID` and `groupIDs` are set by `NewClient` and never written again. -/
structure Client where
  addr : Nat
  userID : String
  groupIDs : List String
deriving DecidableEq, Repr

/-- The channel `client.send`: what is buffered in it, and whether it has been
closed. `NewClient` makes it empty and open. -/
structure Chan where
  buf : List Notification
  closed : Bool
deriving DecidableEq, Repr

/-- What an iteration of the loop does to the world outside the registry: a call
of a Broker method, with what the Broker answered, or `close(client.send)`. -/
inductive Effect
  | Publish (channel : String) (message : List Char) (err : GoError)
  | TrackUser (userID : String) (groupIDs : List String) (err : GoError)
  | UntrackUser (userID : String) (groupIDs : List String) (err : GoError)
  | GetGroupMembers (groupID : String) (members : List String) (err : GoError)
  | GetActiveUsers (users : List String) (err : GoError)
  | CloseSend (c : Client)
deriving DecidableEq, Repr

/-- What the `select` of `Hub.Run` receives: a client from `h.register`, a client
from `h.unregister`, or a notification from `h.broadcast`. -/
inductive Event
  | register (c : Client)
  | unregister (c : Client)
  | broadcast (n : Notification)
deriving DecidableEq, Repr

/-- The Hub and what it acts on. `clients` holds the keys of the map
`h.clients` (every value stored is `true`), `broker` is the state of `h.broker`,
`send` is the state of each client's `send` channel. `log` is not in the source:
it records each iteration of the loop, the event received and the effects of
handling it, in order. -/
structure Hub (β : Type) where
  clients : List Client
  broker : β
  send : Client → Chan
  log : List (Event × List Effect)

/-- `NewHub(broker)`: no client in the registry; no `send` channel has been
closed, nothing is buffered. -/
def NewHub {β : Type} (broker : β) : Hub β :=
  { clients := [], broker := broker, send := fun _ => ⟨[], false⟩, log := [] }

/-- The channel of a user: `"notify:user:" + userID`. -/
def userChannel (userID : String) : String := "notify:user:" ++ userID

/-- The loop `for _, userID := range users { h.broker.Publish(...) }`
(hub.go, lines 57 to 59 and 63 to 65): the error of `Publish` is dropped. -/
def publishEach {β : Type} (B : Broker β) (data : List Char) :
    List String → β → List Effect × β
  | [], b => ([], b)
  | u :: us, b =>
    let r := B.Publish b (userChannel u) data
    let rest := publishEach B data us r.2
    (Effect.Publish (userChannel u) data r.1 :: rest.1, rest.2)

/-- The loop over `message.GroupIDs` (hub.go, lines 55 to 60): the error of
`GetGroupMembers` is dropped and the members returned are published to. -/
def publishGroups {β : Type} (B : Broker β) (data : List Char) :
    List String → β → List Effect × β
  | [], b => ([], b)
  | g :: gs, b =>
    let r := B.GetGroupMembers b g
    let p := publishEach B data r.1.1 r.2
    let rest := publishGroups B data gs p.2
    (Effect.GetGroupMembers g r.1.1 r.1.2 :: (p.1 ++ rest.1), rest.2)

/-- The case `message := <-h.broadcast` (hub.go, lines 46 to 66). -/
def handleBroadcast {β : Type} (B : Broker β) (b : β) (message : Notification) :
    List Effect × β :=
  match message.Marshal with
  | (_, some _) => ([], b)
  | (data, none) =>
    if message.TargetID ≠ "" then
      let r := B.Publish b (userChannel message.TargetID) data
      ([Effect.Publish (userChannel message.TargetID) data r.1], r.2)
    else if message.GroupIDs.length > 0 then
      publishGroups B data message.GroupIDs b
    else
      let r := B.GetActiveUsers b
      let p := publishEach B data r.1.1 r.2
      (Effect.GetActiveUsers r.1.1 r.1.2 :: p.1, p.2)

/-- One iteration of the loop of `Hub.Run` on the event received. `none` is a
panic: `close` of a channel that is already closed. -/
def Hub.step {β : Type} (B : Broker β) (h : Hub β) : Event → Option (Hub β)
  | .register client =>
    let r := B.TrackUser h.broker client.userID client.groupIDs
    some { clients := if client ∈ h.clients then h.clients else h.clients ++ [client],
           broker := r.2,
           send := h.send,
           log := h.log ++ [(.register client,
             [Effect.TrackUser client.userID client.groupIDs r.1])] }
  | .unregister client =>
    if client ∈ h.clients then
      if (h.send client).closed then none
      else
        let r := B.UntrackUser h.broker client.userID client.groupIDs
        some { clients := h.clients.filter (fun c => c ≠ client),
               broker := r.2,
               send := Function.update h.send client ⟨(h.send client).buf, true⟩,
               log := h.log ++ [(.unregister client,
                 [Effect.CloseSend client,
                  Effect.UntrackUser client.userID client.groupIDs r.1])] }
    else some { h with log := h.log ++ [(.unregister client, [])] }
  | .broadcast message =>
    let r := handleBroadcast B h.broker message
    some { h with broker := r.2, log := h.log ++ [(.broadcast message, r.1)] }

/-- The loop of `Hub.Run` on the events it receives, in the order it receives
them. `none` when an iteration panics. -/
def Hub.run {β : Type} (B : Broker β) : Hub β → List Event → Option (Hub β)
  | h, [] => some h
  | h, e :: es => (h.step B e).bind (fun h1 => Hub.run B h1 es)

/-- The effects of a run, in order. -/
def Hub.trace {β : Type} (h : Hub β) : List Effect :=
  h.log.flatMap (fun it => it.2)

/-- A Broker for examples: it keeps no state and answers from tables. -/
def tableBroker (members : String → List String × GoError)
    (active : List String × GoError) (publishErr : String → GoError) : Broker Unit :=
  { Publish := fun _ ch _ => (publishErr ch, ()),
    TrackUser := fun _ _ _ => (none, ()),
    UntrackUser := fun _ _ _ => (none, ()),
    GetGroupMembers := fun _ g => (members g, ()),
    GetActiveUsers := fun _ => (active, ()) }

/-- The channels of the `Publish` calls among the effects, in order. -/
def publishedChannels : List Effect → List String
  | [] => []
  | Effect.Publish ch _ _ :: es => ch :: publishedChannels es
  | _ :: es => publishedChannels es

/-- The `GetGroupMembers` calls among the effects, in order: the group asked for
and the members returned. -/
def groupAnswers : List Effect → List (String × List String)
  | [] => []
  | Effect.GetGroupMembers g ms _ :: es => (g, ms) :: groupAnswers es
  | _ :: es => groupAnswers es

/-- The effect is a `Publish` of the payload `data`. -/
def Effect.isPublishOf (data : List Char) : Effect → Bool
  | Effect.Publish _ d _ => d == data
  | _ => false

/-- What the effects of a fan-out over the groups `gs` look like: for each group
in order, one `GetGroupMembers` call, with any list of members and any error as
its answer, and then one `Publish` of `data` for each member returned, in order,
each with any error as its answer. -/
def GroupFanout (data : List Char) : List String → List Effect → Prop
  | [], effs => effs = []
  | g :: gs, effs =>
    ∃ (ms : List String) (err : GoError) (perrs : List GoError) (rest : List Effect),
      perrs.length = ms.length ∧
      effs = Effect.GetGroupMembers g ms err ::
        (List.zipWith (fun u e => Effect.Publish (userChannel u) data e) ms perrs ++ rest) ∧
      GroupFanout data gs rest

/-- The effect is a call of a Broker method. -/
def Effect.isBrokerCall : Effect → Bool
  | Effect.CloseSend _ => false
  | _ => true

/-- The Broker calls made for the client `c`: those of the iterations that
handled an event of `c`, its registration or an unregistration, in order. -/
def brokerCallsFor (c : Client) (log : List (Event × List Effect)) : List Effect :=
  ((log.filter (fun it => it.1 = Event.register c ∨ it.1 = Event.unregister c)).flatMap
    (fun it => it.2)).filter Effect.isBrokerCall

/-- The invariant of the loop while events `rest` are still to come: a registered
client has an open `send` channel; a client that is registered, or whose channel
is closed, is not registered again; the trace holds one `close` for each closed
channel and none for an open one; no client is registered twice in `rest`. -/
def Hub.Safe {β : Type} (h : Hub β) (rest : List Event) : Prop :=
  (∀ c ∈ h.clients, (h.send c).closed = false) ∧
  (∀ c, (h.send c).closed = true → Event.register c ∉ rest) ∧
  (∀ c ∈ h.clients, Event.register c ∉ rest) ∧
  (∀ c, h.trace.count (Effect.CloseSend c) = if (h.send c).closed then 1 else 0) ∧
  (∀ c, rest.count (Event.register c) ≤ 1)

/-! ## ws/client.go: WritePump -/

/-- What `WritePump` writes on the connection: `WriteJSON(message)`,
`WriteMessage(websocket.CloseMessage, []byte{})`, or
`WriteMessage(websocket.PingMessage, nil)`. -/
inductive Frame
  | json (message : Notification)
  | close
  | ping
deriving DecidableEq, Repr

/-- What the `select` of `WritePump` delivers in one iteration: a receive from
`c.send`, which is `some message` for a queued notification (`ok` true) and `none`
once the channel is closed and drained (`ok` false), or a tick of the ticker. -/
inductive Select
  | recv (message : Option Notification)
  | tick
deriving DecidableEq, Repr

/-- The outcome of `WritePump` on what its `select` delivered: the writes it made on
the connection, in order, each with whether the write returned an error, and
whether the function returned (the deferred `ticker.Stop()` and `c.conn.Close()`
then ran). It has not returned when it waits in `select` for more. -/
structure PumpResult where
  writes : List (Frame × Bool)
  exited : Bool
deriving DecidableEq, Repr

/-- The loop of `WritePump` (client.go, lines 92 to 110). `fail i` says whether the
write number `i` on the connection returns an error (a broken connection, or the
write deadline set just before passing); `log` holds the writes made so far. -/
def WritePump (fail : Nat → Bool) : List Select → List (Frame × Bool) → PumpResult
  | [], log => ⟨log, false⟩
  | Select.recv none :: _, log => ⟨log ++ [(Frame.close, fail log.length)], true⟩
  | Select.recv (some message) :: rest, log =>
    if fail log.length then ⟨log ++ [(Frame.json message, true)], true⟩
    else WritePump fail rest (log ++ [(Frame.json message, false)])
  | Select.tick :: rest, log =>
    if fail log.length then ⟨log ++ [(Frame.ping, true)], true⟩
    else WritePump fail rest (log ++ [(Frame.ping, false)])

/-- The receives among what `select` delivered, in order. -/
def receives : List Select → List (Option Notification)
  | [] => []
  | Select.recv m :: rest => m :: receives rest
  | Select.tick :: rest => receives rest

/-- The frames written other than pings, in order. -/
def framesNoPing : List (Frame × Bool) → List Frame
  | [] => []
  | (Frame.ping, _) :: rest => framesNoPing rest
  | (f, _) :: rest => f :: framesNoPing rest

/-- The frame `WritePump` writes for what `select` delivered: the notification
received, the Close frame for the closed-and-drained receive, a ping for a tick. -/
def frameOf : Select → Frame
  | Select.recv (some message) => Frame.json message
  | Select.recv none => Frame.close
  | Select.tick => Frame.ping

/-- What publishing `data` to `users`, in order, is on a Broker in state `b`: each
`Publish` on `"notify:user:" ++ u` is applied to the Broker in the state the call
before it left, and is an effect with the answer the Broker gave, an error or
not; `b1` is the state of the Broker after the last call. -/
inductive PublishedTo {β : Type} (B : Broker β) (data : List Char) :
    List String → β → List Effect → β → Prop
  | done (b : β) : PublishedTo B data [] b [] b
  | next (u : String) (us : List String) (b : β) (effs : List Effect) (b1 : β) :
    PublishedTo B data us (B.Publish b ("notify:user:" ++ u) data).2 effs b1 →
    PublishedTo B data (u :: us) b
      (Effect.Publish ("notify:user:" ++ u) data (B.Publish b ("notify:user:" ++ u) data).1
        :: effs) b1

/-- What the fan-out of `data` over the groups `gs`, in order, is on a Broker in
state `b`: for each group, `GetGroupMembers` is applied to the Broker in the state
it is in and is an effect with the members and the error the Broker answered, and
`data` is published to the members answered, whatever the error; `b2` is the
state of the Broker after the last call. -/
inductive FannedOut {β : Type} (B : Broker β) (data : List Char) :
    List String → β → List Effect → β → Prop
  | done (b : β) : FannedOut B data [] b [] b
  | next (g : String) (gs : List String) (b : β) (pubs : List Effect) (b1 : β)
      (rest : List Effect) (b2 : β) :
    PublishedTo B data (B.GetGroupMembers b g).1.1 (B.GetGroupMembers b g).2 pubs b1 →
    FannedOut B data gs b1 rest b2 →
    FannedOut B data (g :: gs) b
      (Effect.GetGroupMembers g (B.GetGroupMembers b g).1.1 (B.GetGroupMembers b g).1.2
        :: (pubs ++ rest)) b2

/-- A Broker for examples that counts: its state is the number of calls made so
far, and it answers from tables. -/
def countingBroker (members : String → List String × GoError)
    (active : List String × GoError) (publishErr : String → GoError)
    (trackErr : String → GoError) : Broker Nat :=
  { Publish := fun k ch _ => (publishErr ch, k + 1),
    TrackUser := fun k u _ => (trackErr u, k + 1),
    UntrackUser := fun k u _ => (trackErr u, k + 1),
    GetGroupMembers := fun k g => (members g, k + 1),
    GetActiveUsers := fun k => (active, k + 1) }

/-! ## Theorems -/

/-! ### The broadcast step -/

theorem publishedChannels_append (a b : List Effect) :
    publishedChannels (a ++ b) = publishedChannels a ++ publishedChannels b := by
  induction a with
  | nil => rfl
  | cons e t ih => cases e <;> simp [publishedChannels, ih]

theorem groupAnswers_append (a b : List Effect) :
    groupAnswers (a ++ b) = groupAnswers a ++ groupAnswers b := by
  induction a with
  | nil => rfl
  | cons e t ih => cases e <;> simp [groupAnswers, ih]

theorem publishEach_channels {β : Type} (B : Broker β) (data : List Char)
    (us : List String) (b : β) :
    publishedChannels (publishEach B data us b).1 = us.map userChannel := by
  induction us generalizing b with
  | nil => rfl
  | cons u t ih => simp [publishEach, publishedChannels, ih]

theorem publishEach_groupAnswers {β : Type} (B : Broker β) (data : List Char)
    (us : List String) (b : β) :
    groupAnswers (publishEach B data us b).1 = [] := by
  induction us generalizing b with
  | nil => rfl
  | cons u t ih => simp [publishEach, groupAnswers, ih]

theorem publishEach_all {β : Type} (B : Broker β) (data : List Char)
    (us : List String) (b : β) :
    ∀ e ∈ (publishEach B data us b).1, e.isPublishOf data = true := by
  induction us generalizing b with
  | nil => simp [publishEach]
  | cons u t ih =>
    intro e he
    simp only [publishEach, List.mem_cons] at he
    rcases he with rfl | he
    · simp [Effect.isPublishOf]
    · exact ih _ e he

theorem publishEach_length {β : Type} (B : Broker β) (data : List Char)
    (us : List String) (b : β) :
    (publishEach B data us b).1.length = us.length := by
  induction us generalizing b with
  | nil => rfl
  | cons u t ih => simp [publishEach, ih]

theorem publishEach_zipWith {β : Type} (B : Broker β) (data : List Char)
    (us : List String) (b : β) :
    ∃ perrs : List GoError, perrs.length = us.length ∧
      (publishEach B data us b).1 =
        List.zipWith (fun u e => Effect.Publish (userChannel u) data e) us perrs := by
  induction us generalizing b with
  | nil => exact ⟨[], rfl, rfl⟩
  | cons u t ih =>
    obtain ⟨pe, hl, he⟩ := ih (B.Publish b (userChannel u) data).2
    refine ⟨(B.Publish b (userChannel u) data).1 :: pe, by simp [hl], ?_⟩
    simp [publishEach, he]

theorem publishGroups_channels {β : Type} (B : Broker β) (data : List Char)
    (gs : List String) (b : β) :
    publishedChannels (publishGroups B data gs b).1 =
      (groupAnswers (publishGroups B data gs b).1).flatMap
        (fun a => a.2.map userChannel) := by
  induction gs generalizing b with
  | nil => rfl
  | cons g t ih =>
    simp [publishGroups, publishedChannels, groupAnswers, publishedChannels_append,
      groupAnswers_append, publishEach_channels, publishEach_groupAnswers, ih]

theorem publishGroups_groups {β : Type} (B : Broker β) (data : List Char)
    (gs : List String) (b : β) :
    (groupAnswers (publishGroups B data gs b).1).map (fun a => a.1) = gs := by
  induction gs generalizing b with
  | nil => rfl
  | cons g t ih =>
    simp [publishGroups, groupAnswers, groupAnswers_append, publishEach_groupAnswers, ih]

theorem publishGroups_fanout {β : Type} (B : Broker β) (data : List Char)
    (gs : List String) (b : β) :
    GroupFanout data gs (publishGroups B data gs b).1 := by
  induction gs generalizing b with
  | nil => rfl
  | cons g t ih =>
    obtain ⟨pe, hl, he⟩ :=
      publishEach_zipWith B data (B.GetGroupMembers b g).1.1 (B.GetGroupMembers b g).2
    refine ⟨(B.GetGroupMembers b g).1.1, (B.GetGroupMembers b g).1.2, pe,
      (publishGroups B data t
        (publishEach B data (B.GetGroupMembers b g).1.1 (B.GetGroupMembers b g).2).2).1,
      hl, ?_, ih _⟩
    simp only [publishGroups, he]

theorem publishGroups_payload {β : Type} (B : Broker β) (data : List Char)
    (gs : List String) (b : β) :
    ∀ e ∈ (publishGroups B data gs b).1,
      e.isPublishOf data = true ∨ ∃ g ms err, e = Effect.GetGroupMembers g ms err := by
  induction gs generalizing b with
  | nil => simp [publishGroups]
  | cons g t ih =>
    intro e he
    simp only [publishGroups, List.mem_cons, List.mem_append] at he
    rcases he with rfl | he | he
    · exact Or.inr ⟨_, _, _, rfl⟩
    · exact Or.inl (publishEach_all B data _ _ e he)
    · exact ih _ e he

/-- C1: a notification with a non-empty `TargetID`, whatever its `GroupIDs`, makes
the broadcast iteration end normally with exactly one effect: one `Publish` on
`"notify:user:" ++ TargetID` with the marshalled notification as payload. No
`GetGroupMembers` or `GetActiveUsers` call is among the effects. -/
theorem broadcast_target_single_publish {β : Type} (B : Broker β) (h : Hub β)
    (n : Notification) (ht : n.TargetID ≠ "") :
    ∃ h1, h.step B (.broadcast n) = some h1 ∧
      h1.log = h.log ++ [(Event.broadcast n,
        [Effect.Publish ("notify:user:" ++ n.TargetID) n.Marshal.1
          (B.Publish h.broker ("notify:user:" ++ n.TargetID) n.Marshal.1).1])] ∧
      h1.broker = (B.Publish h.broker ("notify:user:" ++ n.TargetID) n.Marshal.1).2 := by
  refine ⟨_, rfl, ?_, ?_⟩ <;>
    simp [handleBroadcast, Notification.Marshal, ht, userChannel]

theorem broadcast_target_single_publish_witness :
    (⟨"n1", "info", "hello", "u1", ["g1", "g2"], 1700000000⟩ : Notification).TargetID ≠ "" ∧
    ∃ h1, (NewHub ()).step (tableBroker (fun _ => (["u1", "u2"], none)) (["u3"], none)
        (fun _ => none)) (.broadcast ⟨"n1", "info", "hello", "u1", ["g1", "g2"], 1700000000⟩)
        = some h1 ∧
      h1.log = (NewHub ()).log ++
        [(Event.broadcast ⟨"n1", "info", "hello", "u1", ["g1", "g2"], 1700000000⟩,
          [Effect.Publish ("notify:user:" ++ "u1")
            (Notification.Marshal ⟨"n1", "info", "hello", "u1", ["g1", "g2"], 1700000000⟩).1
            none])] ∧
      h1.broker = () :=
  ⟨by decide, broadcast_target_single_publish
    (tableBroker (fun _ => (["u1", "u2"], none)) (["u3"], none) (fun _ => none))
    (NewHub ()) ⟨"n1", "info", "hello", "u1", ["g1", "g2"], 1700000000⟩ (by decide)⟩

theorem publishGroups_channels_of_table {β : Type} (B : Broker β) (data : List Char)
    (members : String → List String)
    (hm : ∀ b g, (B.GetGroupMembers b g).1.1 = members g) (gs : List String) (b : β) :
    publishedChannels (publishGroups B data gs b).1 =
      gs.flatMap (fun g => (members g).map userChannel) := by
  induction gs generalizing b with
  | nil => rfl
  | cons g t ih =>
    simp [publishGroups, publishedChannels, publishedChannels_append,
      publishEach_channels, hm, ih]

theorem groupFanout_split (data : List Char) (pre : List String) (g : String)
    (post : List String) (effs : List Effect)
    (hf : GroupFanout data (pre ++ g :: post) effs) :
    ∃ (before : List Effect) (ms : List String) (err : GoError) (perrs : List GoError)
      (after : List Effect),
      perrs.length = ms.length ∧
      effs = before ++ Effect.GetGroupMembers g ms err ::
        (List.zipWith (fun u e => Effect.Publish (userChannel u) data e) ms perrs ++ after) ∧
      GroupFanout data pre before ∧ GroupFanout data post after := by
  induction pre generalizing effs with
  | nil =>
    obtain ⟨ms, err, perrs, rest, hl, he, hr⟩ := hf
    exact ⟨[], ms, err, perrs, rest, hl, by simpa using he, rfl, hr⟩
  | cons p t ih =>
    obtain ⟨ms, err, perrs, rest, hl, he, hr⟩ := hf
    obtain ⟨before, ms1, err1, perrs1, after, hl1, he1, hb, ha⟩ := ih rest hr
    refine ⟨Effect.GetGroupMembers p ms err ::
        (List.zipWith (fun u e => Effect.Publish (userChannel u) data e) ms perrs ++ before),
      ms1, err1, perrs1, after, hl1, ?_, ⟨ms, err, perrs, before, hl, rfl, hb⟩, ha⟩
    rw [he, he1]
    simp

theorem handleBroadcast_groups {β : Type} (B : Broker β) (b : β) (n : Notification)
    (ht : n.TargetID = "") (hg : n.GroupIDs ≠ []) :
    handleBroadcast B b n = publishGroups B n.Marshal.1 n.GroupIDs b := by
  have hpos : 0 < n.GroupIDs.length := List.length_pos.mpr hg
  simp [handleBroadcast, Notification.Marshal, ht, hpos]

theorem publishEach_publishedTo {β : Type} (B : Broker β) (data : List Char)
    (us : List String) (b : β) :
    PublishedTo B data us b (publishEach B data us b).1 (publishEach B data us b).2 := by
  induction us generalizing b with
  | nil => exact PublishedTo.done b
  | cons u t ih => exact PublishedTo.next u t b _ _ (ih _)

theorem publishEach_broker {β : Type} (B : Broker β) (data : List Char)
    (us : List String) (b : β) :
    (publishEach B data us b).2 =
      us.foldl (fun k u => (B.Publish k ("notify:user:" ++ u) data).2) b := by
  induction us generalizing b with
  | nil => rfl
  | cons u t ih => simp [publishEach, ih, userChannel]

theorem publishGroups_fannedOut {β : Type} (B : Broker β) (data : List Char)
    (gs : List String) (b : β) :
    FannedOut B data gs b (publishGroups B data gs b).1 (publishGroups B data gs b).2 := by
  induction gs generalizing b with
  | nil => exact FannedOut.done b
  | cons g t ih =>
    exact FannedOut.next g t b _ _ _ _ (publishEach_publishedTo B data _ _) (ih _)

theorem publishGroups_append {β : Type} (B : Broker β) (data : List Char)
    (pre post : List String) (b : β) :
    publishGroups B data (pre ++ post) b =
      ((publishGroups B data pre b).1 ++
        (publishGroups B data post (publishGroups B data pre b).2).1,
       (publishGroups B data post (publishGroups B data pre b).2).2) := by
  induction pre generalizing b with
  | nil => simp [publishGroups]
  | cons p t ih => simp [publishGroups, ih]

/-- C2: a notification with an empty `TargetID` and a non-empty `GroupIDs` makes the
broadcast iteration end normally; `GetGroupMembers` is called once for each listed
group, in list order, and the channels of the `Publish` calls are, in order,
`"notify:user:" ++ u` for each of these calls and each member `u` it returned, with
no deduplication; every `Publish` carries the marshalled notification. When the
Broker answers `GetGroupMembers(g)` with `members g` whatever its state, the
channels are those of `members g` for `g` along `GroupIDs`. The effects are the
calls made on the Broker: each `GetGroupMembers` and each `Publish` is applied to
the Broker in the state the call before left, the members and errors logged are
the Broker's answers, and the Broker is left in the state after the last call;
the registry and the `send` channels are as before. -/
theorem broadcast_groups_publish_per_member {β : Type} (B : Broker β) (h : Hub β)
    (n : Notification) (ht : n.TargetID = "") (hg : n.GroupIDs ≠ []) :
    ∃ h1 effs, h.step B (.broadcast n) = some h1 ∧
      h1.log = h.log ++ [(Event.broadcast n, effs)] ∧
      (groupAnswers effs).map (fun a => a.1) = n.GroupIDs ∧
      publishedChannels effs =
        (groupAnswers effs).flatMap (fun a => a.2.map (fun u => "notify:user:" ++ u)) ∧
      (∀ e ∈ effs, e.isPublishOf n.Marshal.1 = true ∨
        ∃ g ms err, e = Effect.GetGroupMembers g ms err) ∧
      (∀ members : String → List String,
        (∀ b g, (B.GetGroupMembers b g).1.1 = members g) →
        publishedChannels effs =
          n.GroupIDs.flatMap (fun g => (members g).map (fun u => "notify:user:" ++ u))) ∧
      FannedOut B n.Marshal.1 n.GroupIDs h.broker effs h1.broker ∧
      h1.clients = h.clients ∧ h1.send = h.send := by
  refine ⟨{ h with broker := (publishGroups B n.Marshal.1 n.GroupIDs h.broker).2,
                   log := h.log ++ [(Event.broadcast n,
                     (publishGroups B n.Marshal.1 n.GroupIDs h.broker).1)] },
    (publishGroups B n.Marshal.1 n.GroupIDs h.broker).1, ?_, rfl, ?_, ?_, ?_, ?_, ?_, rfl, rfl⟩
  · simp [Hub.step, handleBroadcast_groups B h.broker n ht hg]
  · exact publishGroups_groups B _ _ _
  · exact publishGroups_channels B _ _ _
  · exact publishGroups_payload B _ _ _
  · intro members hm
    exact publishGroups_channels_of_table B _ members hm _ _
  · exact publishGroups_fannedOut B _ _ _

theorem broadcast_groups_publish_per_member_witness :
    (⟨"n1", "info", "hello", "", ["g1", "g2"], 1700000000⟩ : Notification).TargetID = "" ∧
    (⟨"n1", "info", "hello", "", ["g1", "g2"], 1700000000⟩ : Notification).GroupIDs ≠ [] ∧
    ∃ h1 effs, (NewHub 0).step
        (countingBroker (fun g => if g = "g1" then (["u1", "u2"], none)
          else if g = "g2" then (["u2"], none) else ([], none)) ([], none)
          (fun ch => if ch = "notify:user:u2" then some "publish failed" else none)
          (fun _ => none))
        (.broadcast ⟨"n1", "info", "hello", "", ["g1", "g2"], 1700000000⟩) = some h1 ∧
      h1.log = [(Event.broadcast ⟨"n1", "info", "hello", "", ["g1", "g2"], 1700000000⟩, effs)] ∧
      publishedChannels effs = ["notify:user:u1", "notify:user:u2", "notify:user:u2"] ∧
      (publishedChannels effs).count "notify:user:u1" = 1 ∧
      (publishedChannels effs).count "notify:user:u2" = 2 ∧
      h1.broker = 5 ∧
      effs =
        [Effect.GetGroupMembers "g1" ["u1", "u2"] none,
         Effect.Publish "notify:user:u1"
           (Notification.Marshal ⟨"n1", "info", "hello", "", ["g1", "g2"], 1700000000⟩).1 none,
         Effect.Publish "notify:user:u2"
           (Notification.Marshal ⟨"n1", "info", "hello", "", ["g1", "g2"], 1700000000⟩).1
           (some "publish failed"),
         Effect.GetGroupMembers "g2" ["u2"] none,
         Effect.Publish "notify:user:u2"
           (Notification.Marshal ⟨"n1", "info", "hello", "", ["g1", "g2"], 1700000000⟩).1
           (some "publish failed")] := by
  refine ⟨by decide, by decide, ?_⟩
  obtain ⟨h1, effs, hs, hl, _, _, _, hm, _, _, _⟩ := broadcast_groups_publish_per_member
    (countingBroker (fun g => if g = "g1" then (["u1", "u2"], none)
      else if g = "g2" then (["u2"], none) else ([], none)) ([], none)
      (fun ch => if ch = "notify:user:u2" then some "publish failed" else none)
      (fun _ => none))
    (NewHub 0) ⟨"n1", "info", "hello", "", ["g1", "g2"], 1700000000⟩ (by decide) (by decide)
  have hc := hm (fun g => if g = "g1" then ["u1", "u2"] else if g = "g2" then ["u2"] else [])
    (by intro b g; simp only [countingBroker]; split_ifs <;> rfl)
  have hv : publishedChannels effs = ["notify:user:u1", "notify:user:u2", "notify:user:u2"] := by
    rw [hc]; decide
  have hl1 : h1.log =
      [(Event.broadcast ⟨"n1", "info", "hello", "", ["g1", "g2"], 1700000000⟩, effs)] := by
    simpa [NewHub] using hl
  have h2 := Option.some.inj hs
  have hb : h1.broker = 5 := by
    rw [← h2]
    decide
  have he := hl1
  rw [← h2] at he
  have h3 := (Prod.mk.inj (List.cons.inj he.symm).1).2
  refine ⟨h1, effs, hs, hl1, hv, ?_, ?_, hb, ?_⟩
  · rw [hv]; decide
  · rw [hv]; decide
  · rw [h3]
    decide

/-- C3: a notification with an empty `TargetID` and an empty `GroupIDs` makes the
broadcast iteration end normally; its effects are one `GetActiveUsers` call and
then one `Publish` of the marshalled notification for each user returned, on
`"notify:user:" ++ u`, in order: as many `Publish` calls as users, and no
`GetGroupMembers` call. The effects are the calls made on the Broker: each
`Publish` is applied to the Broker in the state the call before left, the error
logged is the Broker's answer, and the Broker is left in the state after the last
`Publish`; the registry and the `send` channels are as before. -/
theorem broadcast_all_publish_per_active_user {β : Type} (B : Broker β) (h : Hub β)
    (n : Notification) (ht : n.TargetID = "") (hg : n.GroupIDs = []) :
    ∃ h1 pubs, h.step B (.broadcast n) = some h1 ∧
      h1.log = h.log ++ [(Event.broadcast n,
        Effect.GetActiveUsers (B.GetActiveUsers h.broker).1.1
          (B.GetActiveUsers h.broker).1.2 :: pubs)] ∧
      publishedChannels pubs =
        (B.GetActiveUsers h.broker).1.1.map (fun u => "notify:user:" ++ u) ∧
      pubs.length = (B.GetActiveUsers h.broker).1.1.length ∧
      (∀ e ∈ pubs, e.isPublishOf n.Marshal.1 = true) ∧
      PublishedTo B n.Marshal.1 (B.GetActiveUsers h.broker).1.1 (B.GetActiveUsers h.broker).2
        pubs h1.broker ∧
      h1.broker = (B.GetActiveUsers h.broker).1.1.foldl
        (fun k u => (B.Publish k ("notify:user:" ++ u) n.Marshal.1).2)
        (B.GetActiveUsers h.broker).2 ∧
      h1.clients = h.clients ∧ h1.send = h.send := by
  refine ⟨{ h with
      broker := (publishEach B n.Marshal.1 (B.GetActiveUsers h.broker).1.1
        (B.GetActiveUsers h.broker).2).2,
      log := h.log ++ [(Event.broadcast n,
        Effect.GetActiveUsers (B.GetActiveUsers h.broker).1.1 (B.GetActiveUsers h.broker).1.2 ::
          (publishEach B n.Marshal.1 (B.GetActiveUsers h.broker).1.1
            (B.GetActiveUsers h.broker).2).1)] },
    (publishEach B n.Marshal.1 (B.GetActiveUsers h.broker).1.1
      (B.GetActiveUsers h.broker).2).1, ?_, rfl, ?_, ?_, ?_, ?_, ?_, rfl, rfl⟩
  · simp [Hub.step, handleBroadcast, Notification.Marshal, ht, hg]
  · exact publishEach_channels B _ _ _
  · exact publishEach_length B _ _ _
  · exact publishEach_all B _ _ _
  · exact publishEach_publishedTo B _ _ _
  · exact publishEach_broker B _ _ _

theorem broadcast_all_publish_per_active_user_witness :
    (⟨"n1", "info", "hello", "", [], 1700000000⟩ : Notification).TargetID = "" ∧
    (⟨"n1", "info", "hello", "", [], 1700000000⟩ : Notification).GroupIDs = [] ∧
    ∃ h1 pubs, (NewHub 0).step
        (countingBroker (fun _ => ([], none)) (["u1", "u2", "u3"], none)
          (fun ch => if ch = "notify:user:u2" then some "publish failed" else none)
          (fun _ => none))
        (.broadcast ⟨"n1", "info", "hello", "", [], 1700000000⟩) = some h1 ∧
      h1.log = [(Event.broadcast ⟨"n1", "info", "hello", "", [], 1700000000⟩,
        Effect.GetActiveUsers ["u1", "u2", "u3"] none :: pubs)] ∧
      publishedChannels pubs = ["notify:user:u1", "notify:user:u2", "notify:user:u3"] ∧
      pubs.length = 3 ∧
      h1.broker = 4 ∧
      pubs =
        [Effect.Publish "notify:user:u1"
           (Notification.Marshal ⟨"n1", "info", "hello", "", [], 1700000000⟩).1 none,
         Effect.Publish "notify:user:u2"
           (Notification.Marshal ⟨"n1", "info", "hello", "", [], 1700000000⟩).1
           (some "publish failed"),
         Effect.Publish "notify:user:u3"
           (Notification.Marshal ⟨"n1", "info", "hello", "", [], 1700000000⟩).1 none] := by
  refine ⟨by decide, by decide, ?_⟩
  obtain ⟨h1, pubs, hs, hl, hc, hn, _, _, hb, _, _⟩ := broadcast_all_publish_per_active_user
    (countingBroker (fun _ => ([], none)) (["u1", "u2", "u3"], none)
      (fun ch => if ch = "notify:user:u2" then some "publish failed" else none)
      (fun _ => none))
    (NewHub 0) ⟨"n1", "info", "hello", "", [], 1700000000⟩ (by decide) (by decide)
  have hl1 : h1.log = [(Event.broadcast ⟨"n1", "info", "hello", "", [], 1700000000⟩,
      Effect.GetActiveUsers ["u1", "u2", "u3"] none :: pubs)] := by
    simpa [NewHub, countingBroker] using hl
  have h2 := Option.some.inj hs
  have he := hl1
  rw [← h2] at he
  have h3 := (List.cons.inj (Prod.mk.inj (List.cons.inj he.symm).1).2).2
  refine ⟨h1, pubs, hs, hl1, by simpa [countingBroker] using hc,
    by simpa [countingBroker] using hn, ?_, ?_⟩
  · rw [hb]
    decide
  · rw [h3]
    decide

theorem publishGroups_split {β : Type} (B : Broker β) (data : List Char)
    (pre : List String) (g : String) (post : List String) (b : β) :
    ∃ (before : List Effect) (b1 : β) (pubs : List Effect) (b2 : β) (after : List Effect),
      FannedOut B data pre b before b1 ∧
      PublishedTo B data (B.GetGroupMembers b1 g).1.1 (B.GetGroupMembers b1 g).2 pubs b2 ∧
      FannedOut B data post b2 after (publishGroups B data (pre ++ g :: post) b).2 ∧
      (publishGroups B data (pre ++ g :: post) b).1 =
        before ++ Effect.GetGroupMembers g (B.GetGroupMembers b1 g).1.1
          (B.GetGroupMembers b1 g).1.2 :: (pubs ++ after) := by
  refine ⟨(publishGroups B data pre b).1, (publishGroups B data pre b).2,
    (publishEach B data (B.GetGroupMembers (publishGroups B data pre b).2 g).1.1
      (B.GetGroupMembers (publishGroups B data pre b).2 g).2).1,
    (publishEach B data (B.GetGroupMembers (publishGroups B data pre b).2 g).1.1
      (B.GetGroupMembers (publishGroups B data pre b).2 g).2).2,
    (publishGroups B data post
      (publishEach B data (B.GetGroupMembers (publishGroups B data pre b).2 g).1.1
        (B.GetGroupMembers (publishGroups B data pre b).2 g).2).2).1,
    publishGroups_fannedOut B data pre b, publishEach_publishedTo B data _ _, ?_, ?_⟩
  · rw [publishGroups_append]
    simp only [publishGroups]
    exact publishGroups_fannedOut B data post _
  · rw [publishGroups_append]
    simp only [publishGroups]

/-- C4: in a broadcast iteration to groups (`TargetID` empty, `GroupIDs` not), the
effects are a fan-out over all of `GroupIDs` whatever errors the Broker returns:
around any listed group `g`, the effects are the fan-out over the groups before
`g`, the `GetGroupMembers(g)` call with any error, one `Publish` for each member
it returned, each with any error, and the fan-out over the groups after `g`.
Nothing else is among the effects: no call is repeated. The effects are the calls
made on the Broker: around any listed group `g`, the groups before `g` are
fanned out on the Broker, `GetGroupMembers(g)` is applied to the Broker in the
state that leaves and is logged with the Broker's answer, error or not, the
members answered are published to, whatever error each `Publish` answers, and the
groups after `g` are fanned out from the state that leaves, up to the state the
Broker is left in. -/
theorem broadcast_groups_errors_do_not_stop {β : Type} (B : Broker β) (h : Hub β)
    (n : Notification) (ht : n.TargetID = "") (hg : n.GroupIDs ≠ []) :
    ∃ h1 effs, h.step B (.broadcast n) = some h1 ∧
      h1.log = h.log ++ [(Event.broadcast n, effs)] ∧
      GroupFanout n.Marshal.1 n.GroupIDs effs ∧
      (∀ pre g post, n.GroupIDs = pre ++ g :: post →
        ∃ (before : List Effect) (ms : List String) (err : GoError) (perrs : List GoError)
          (after : List Effect),
          perrs.length = ms.length ∧
          effs = before ++ Effect.GetGroupMembers g ms err ::
            (List.zipWith (fun u e => Effect.Publish ("notify:user:" ++ u) n.Marshal.1 e)
              ms perrs ++ after) ∧
          GroupFanout n.Marshal.1 pre before ∧ GroupFanout n.Marshal.1 post after) ∧
      FannedOut B n.Marshal.1 n.GroupIDs h.broker effs h1.broker ∧
      (∀ pre g post, n.GroupIDs = pre ++ g :: post →
        ∃ (before : List Effect) (b1 : β) (pubs : List Effect) (b2 : β)
          (after : List Effect),
          FannedOut B n.Marshal.1 pre h.broker before b1 ∧
          PublishedTo B n.Marshal.1 (B.GetGroupMembers b1 g).1.1 (B.GetGroupMembers b1 g).2
            pubs b2 ∧
          FannedOut B n.Marshal.1 post b2 after h1.broker ∧
          effs = before ++ Effect.GetGroupMembers g (B.GetGroupMembers b1 g).1.1
            (B.GetGroupMembers b1 g).1.2 :: (pubs ++ after)) := by
  refine ⟨{ h with broker := (publishGroups B n.Marshal.1 n.GroupIDs h.broker).2,
                   log := h.log ++ [(Event.broadcast n,
                     (publishGroups B n.Marshal.1 n.GroupIDs h.broker).1)] },
    (publishGroups B n.Marshal.1 n.GroupIDs h.broker).1, ?_, rfl, ?_, ?_, ?_, ?_⟩
  · simp [Hub.step, handleBroadcast_groups B h.broker n ht hg]
  · exact publishGroups_fanout B _ _ _
  · intro pre g post hsplit
    have hf := publishGroups_fanout B n.Marshal.1 n.GroupIDs h.broker
    rw [hsplit] at hf
    rw [hsplit]
    exact groupFanout_split _ pre g post _ hf
  · exact publishGroups_fannedOut B _ _ _
  · intro pre g post hsplit
    have := publishGroups_split B n.Marshal.1 pre g post h.broker
    rw [← hsplit] at this
    exact this

theorem broadcast_groups_errors_do_not_stop_witness :
    (⟨"n1", "info", "hello", "", ["g1", "g2", "g3"], 5⟩ : Notification).TargetID = "" ∧
    (⟨"n1", "info", "hello", "", ["g1", "g2", "g3"], 5⟩ : Notification).GroupIDs ≠ [] ∧
    ∃ h1 effs, (NewHub 0).step
        (countingBroker (fun g => if g = "g1" then (["u1"], none)
          else if g = "g2" then ([], some "broker down") else (["u3"], none)) ([], none)
          (fun ch => if ch = "notify:user:u1" then some "publish failed" else none)
          (fun _ => none))
        (.broadcast ⟨"n1", "info", "hello", "", ["g1", "g2", "g3"], 5⟩) = some h1 ∧
      h1.log = [(Event.broadcast ⟨"n1", "info", "hello", "", ["g1", "g2", "g3"], 5⟩, effs)] ∧
      GroupFanout (Notification.Marshal ⟨"n1", "info", "hello", "", ["g1", "g2", "g3"], 5⟩).1
        ["g1", "g2", "g3"] effs ∧
      h1.broker = 5 ∧
      effs =
        [Effect.GetGroupMembers "g1" ["u1"] none,
         Effect.Publish "notify:user:u1"
           (Notification.Marshal ⟨"n1", "info", "hello", "", ["g1", "g2", "g3"], 5⟩).1
           (some "publish failed"),
         Effect.GetGroupMembers "g2" [] (some "broker down"),
         Effect.GetGroupMembers "g3" ["u3"] none,
         Effect.Publish "notify:user:u3"
           (Notification.Marshal ⟨"n1", "info", "hello", "", ["g1", "g2", "g3"], 5⟩).1 none] := by
  refine ⟨by decide, by decide, ?_⟩
  obtain ⟨h1, effs, hs, hl, hf, _, _, _⟩ := broadcast_groups_errors_do_not_stop
    (countingBroker (fun g => if g = "g1" then (["u1"], none)
      else if g = "g2" then ([], some "broker down") else (["u3"], none)) ([], none)
      (fun ch => if ch = "notify:user:u1" then some "publish failed" else none)
      (fun _ => none))
    (NewHub 0) ⟨"n1", "info", "hello", "", ["g1", "g2", "g3"], 5⟩ (by decide) (by decide)
  have hl1 : h1.log =
      [(Event.broadcast ⟨"n1", "info", "hello", "", ["g1", "g2", "g3"], 5⟩, effs)] := by
    simpa [NewHub] using hl
  have h2 := Option.some.inj hs
  have hb : h1.broker = 5 := by
    rw [← h2]
    decide
  have he := hl1
  rw [← h2] at he
  have h3 := (Prod.mk.inj (List.cons.inj he.symm).1).2
  refine ⟨h1, effs, hs, hl1, hf, hb, ?_⟩
  rw [h3]
  decide

/-! ### Unregistering a client that is not registered -/

/-- C9: an unregister event for a client that is not in the registry ends normally
and changes nothing: the registry, every `send` channel and the state of the Broker
are the same, and the iteration has no effect (no Broker call, no `close`). So
when an unregister iteration has ended normally, the same event again ends
normally too and leaves registry, channels, Broker state and trace as they are. -/
theorem unregister_absent_is_noop {β : Type} (B : Broker β) (h : Hub β) (c : Client) :
    (c ∉ h.clients →
      ∃ h1, h.step B (.unregister c) = some h1 ∧ h1.clients = h.clients ∧
        h1.send = h.send ∧ h1.broker = h.broker ∧
        h1.log = h.log ++ [(Event.unregister c, [])] ∧ h1.trace = h.trace) ∧
    (∀ h1, h.step B (.unregister c) = some h1 →
      ∃ h2, h1.step B (.unregister c) = some h2 ∧ h2.clients = h1.clients ∧
        h2.send = h1.send ∧ h2.broker = h1.broker ∧ h2.trace = h1.trace) := by
  have key : ∀ k : Hub β, c ∉ k.clients →
      ∃ h1, k.step B (.unregister c) = some h1 ∧ h1.clients = k.clients ∧
        h1.send = k.send ∧ h1.broker = k.broker ∧
        h1.log = k.log ++ [(Event.unregister c, [])] ∧ h1.trace = k.trace := by
    intro k hk
    refine ⟨{ k with log := k.log ++ [(Event.unregister c, [])] }, ?_, rfl, rfl, rfl, rfl, ?_⟩
    · simp [Hub.step, hk]
    · simp [Hub.trace]
  refine ⟨key h, ?_⟩
  intro h1 hs
  have hc : c ∉ h1.clients := by
    by_cases hin : c ∈ h.clients
    · by_cases hcl : (h.send c).closed = true
      · simp [Hub.step, hin, hcl] at hs
      · simp [Hub.step, hin, hcl] at hs
        rw [← hs]
        simp
    · simp [Hub.step, hin] at hs
      rw [← hs]
      exact hin
  obtain ⟨h2, e1, e2, e3, e4, _, e6⟩ := key h1 hc
  exact ⟨h2, e1, e2, e3, e4, e6⟩

theorem unregister_absent_is_noop_witness :
    (⟨1, "u1", ["g1"]⟩ : Client) ∉ (NewHub ()).clients ∧
    ∃ h1, (NewHub ()).step (tableBroker (fun _ => ([], none)) ([], none) (fun _ => none))
        (.unregister ⟨1, "u1", ["g1"]⟩) = some h1 ∧ h1.clients = (NewHub ()).clients ∧
      h1.send = (NewHub ()).send ∧ h1.broker = (NewHub ()).broker ∧
      h1.log = (NewHub ()).log ++ [(Event.unregister ⟨1, "u1", ["g1"]⟩, [])] ∧
      h1.trace = (NewHub ()).trace :=
  ⟨by simp [NewHub], (unregister_absent_is_noop
    (tableBroker (fun _ => ([], none)) ([], none) (fun _ => none)) (NewHub ())
    ⟨1, "u1", ["g1"]⟩).1 (by simp [NewHub])⟩

/-! ### Runs of the loop -/

theorem handleBroadcast_no_close {β : Type} (B : Broker β) (b : β) (n : Notification)
    (c : Client) : Effect.CloseSend c ∉ (handleBroadcast B b n).1 := by
  intro hmem
  by_cases ht : n.TargetID = ""
  · by_cases hg : n.GroupIDs = []
    · simp only [handleBroadcast, Notification.Marshal, ht, hg, ne_eq, not_true_eq_false,
        if_false, List.length_nil, gt_iff_lt, lt_self_iff_false, List.mem_cons] at hmem
      rcases hmem with hmem | hmem
      · cases hmem
      · have := publishEach_all B _ _ _ _ hmem
        simp [Effect.isPublishOf] at this
    · rw [handleBroadcast_groups B b n ht hg] at hmem
      rcases publishGroups_payload B _ _ _ _ hmem with hp | ⟨g, ms, err, he⟩
      · simp [Effect.isPublishOf] at hp
      · cases he
  · simp [handleBroadcast, Notification.Marshal, ht] at hmem

theorem safe_step {β : Type} (B : Broker β) (h : Hub β) (e : Event) (rest : List Event)
    (hs : h.Safe (e :: rest)) :
    ∃ h1 effs, h.step B e = some h1 ∧ h1.log = h.log ++ [(e, effs)] ∧ h1.Safe rest ∧
      (∀ c, Effect.CloseSend c ∈ effs →
        e = Event.unregister c ∧ c ∈ h.clients ∧ (h.send c).closed = false ∧
        effs.count (Effect.CloseSend c) = 1) ∧
      (∀ n, e = Event.broadcast n →
        h1.clients = h.clients ∧ h1.send = h.send ∧ ∀ c, Effect.CloseSend c ∉ effs) := by
  obtain ⟨ha, hb, hc, hd, he⟩ := hs
  have hrest : ∀ c, rest.count (Event.register c) ≤ 1 := by
    intro c
    have := he c
    rw [List.count_cons] at this
    omega
  cases e with
  | register c =>
    have hcount : rest.count (Event.register c) = 0 := by
      have := he c
      rw [List.count_cons] at this
      simp at this
      exact this
    have hnotin : Event.register c ∉ rest := List.count_eq_zero.mp hcount
    have hcnot : c ∉ h.clients := fun hin => hc c hin (List.mem_cons_self _ _)
    have hcopen : (h.send c).closed = false := by
      by_contra hcl
      exact hb c (by simpa using hcl) (List.mem_cons_self _ _)
    refine ⟨_, _, rfl, rfl, ⟨?_, ?_, ?_, ?_, hrest⟩, ?_, ?_⟩
    · intro d hd1
      simp only [hcnot, if_false, List.mem_append, List.mem_singleton] at hd1
      rcases hd1 with hd1 | rfl
      · exact ha d hd1
      · exact hcopen
    · intro d hd1 hmem
      exact hb d hd1 (List.mem_cons_of_mem _ hmem)
    · intro d hd1
      simp only [hcnot, if_false, List.mem_append, List.mem_singleton] at hd1
      rcases hd1 with hd1 | rfl
      · exact fun hmem => hc d hd1 (List.mem_cons_of_mem _ hmem)
      · exact hnotin
    · intro d
      have := hd d
      simp only [Hub.trace, List.flatMap_append, List.count_append] at this ⊢
      simp [this]
    · intro d hmem
      simp at hmem
    · intro n hn
      cases hn
  | unregister c =>
    by_cases hin : c ∈ h.clients
    · have hopen : (h.send c).closed = false := ha c hin
      refine ⟨{ clients := h.clients.filter (fun d => d ≠ c),
                broker := (B.UntrackUser h.broker c.userID c.groupIDs).2,
                send := Function.update h.send c ⟨(h.send c).buf, true⟩,
                log := h.log ++ [(Event.unregister c,
                  [Effect.CloseSend c, Effect.UntrackUser c.userID c.groupIDs
                    (B.UntrackUser h.broker c.userID c.groupIDs).1])] },
        _, ?_, rfl, ⟨?_, ?_, ?_, ?_, hrest⟩, ?_, ?_⟩
      · simp [Hub.step, hin, hopen]
      · intro d hd1
        simp only [List.mem_filter, decide_eq_true_eq] at hd1
        simp only [Function.update, hd1.2, dite_false]
        exact ha d hd1.1
      · intro d hd1 hmem
        by_cases hdc : d = c
        · subst hdc
          exact hc d hin (List.mem_cons_of_mem _ hmem)
        · simp only [Function.update, hdc, dite_false] at hd1
          exact hb d hd1 (List.mem_cons_of_mem _ hmem)
      · intro d hd1 hmem
        simp only [List.mem_filter, decide_eq_true_eq] at hd1
        exact hc d hd1.1 (List.mem_cons_of_mem _ hmem)
      · intro d
        have := hd d
        simp only [Hub.trace, List.flatMap_append, List.count_append] at this ⊢
        by_cases hdc : d = c
        · subst hdc
          simp [this, hopen, Function.update]
        · have hne : Effect.CloseSend c ≠ Effect.CloseSend d := by
            intro heq
            cases heq
            exact hdc rfl
          simp [this, Function.update, hdc, List.count_cons, hne]
      · intro d hmem
        simp only [List.mem_cons, List.mem_singleton, Effect.CloseSend.injEq,
          List.not_mem_nil, or_false] at hmem
        rcases hmem with hmem | hmem
        · subst hmem
          exact ⟨rfl, hin, hopen, by simp [List.count_cons]⟩
        · cases hmem
      · intro n hn
        cases hn
    · refine ⟨{ h with log := h.log ++ [(Event.unregister c, [])] }, [], ?_, rfl,
        ⟨ha, ?_, ?_, ?_, hrest⟩, ?_, ?_⟩
      · simp [Hub.step, hin]
      · intro d hd1 hmem
        exact hb d hd1 (List.mem_cons_of_mem _ hmem)
      · intro d hd1 hmem
        exact hc d hd1 (List.mem_cons_of_mem _ hmem)
      · intro d
        have := hd d
        simp only [Hub.trace, List.flatMap_append, List.count_append] at this ⊢
        simp [this]
      · intro d hmem
        simp at hmem
      · intro n hn
        cases hn
  | broadcast n =>
    have hnc : ∀ d, Effect.CloseSend d ∉ (handleBroadcast B h.broker n).1 :=
      fun d => handleBroadcast_no_close B h.broker n d
    refine ⟨{ h with broker := (handleBroadcast B h.broker n).2,
                     log := h.log ++ [(Event.broadcast n, (handleBroadcast B h.broker n).1)] },
      _, rfl, rfl, ⟨ha, ?_, ?_, ?_, hrest⟩, ?_, ?_⟩
    · intro d hd1 hmem
      exact hb d hd1 (List.mem_cons_of_mem _ hmem)
    · intro d hd1 hmem
      exact hc d hd1 (List.mem_cons_of_mem _ hmem)
    · intro d
      have := hd d
      simp only [Hub.trace, List.flatMap_append, List.count_append] at this ⊢
      simp [this, List.count_eq_zero.mpr (hnc d)]
    · intro d hmem
      exact absurd hmem (hnc d)
    · intro m _
      exact ⟨rfl, rfl, hnc⟩

theorem safe_run {β : Type} (B : Broker β) (pre rest : List Event) (h : Hub β)
    (hs : h.Safe (pre ++ rest)) :
    ∃ hp, Hub.run B h pre = some hp ∧ hp.Safe rest := by
  induction pre generalizing h with
  | nil => exact ⟨h, rfl, hs⟩
  | cons e t ih =>
    obtain ⟨h1, effs, hstep, _, hsafe, _⟩ := safe_step B h e (t ++ rest) hs
    obtain ⟨hp, hrun, hpsafe⟩ := ih h1 hsafe
    exact ⟨hp, by simp [Hub.run, hstep, hrun], hpsafe⟩

theorem newHub_safe {β : Type} (b0 : β) (evs : List Event)
    (hreg : ∀ c, evs.count (Event.register c) ≤ 1) : (NewHub b0).Safe evs := by
  refine ⟨?_, ?_, ?_, ?_, hreg⟩ <;> simp [NewHub, Hub.trace]

theorem run_total_of_registered_once {β : Type} (B : Broker β) (b0 : β) (evs : List Event)
    (hreg : ∀ c, evs.count (Event.register c) ≤ 1) :
    ∃ h, Hub.run B (NewHub b0) evs = some h ∧ h.Safe [] := by
  have := safe_run B evs [] (NewHub b0) (by simpa using newHub_safe b0 evs hreg)
  exact this

/-- C10: when no client is registered more than once, the loop handles the whole
sequence of events without a panic, and the trace of the run holds at most one
`close(client.send)` for each client. Every iteration in the run ends normally;
a `close` of a client's channel is an effect of an unregister event of that
client only, handled while the client is in the registry and its channel is open,
and it happens once in that iteration. A broadcast iteration leaves the registry
and every `send` channel (buffer and closed flag) as they are, and has no
`close` among its effects. -/
theorem hub_closes_each_queue_at_most_once {β : Type} (B : Broker β) (b0 : β)
    (evs : List Event) (hreg : ∀ c, evs.count (Event.register c) ≤ 1) :
    (∃ h, Hub.run B (NewHub b0) evs = some h ∧
      ∀ c, h.trace.count (Effect.CloseSend c) ≤ 1) ∧
    (∀ pre e post, evs = pre ++ e :: post →
      ∃ hp hq effs, Hub.run B (NewHub b0) pre = some hp ∧ hp.step B e = some hq ∧
        hq.log = hp.log ++ [(e, effs)] ∧
        (∀ c, Effect.CloseSend c ∈ effs →
          e = Event.unregister c ∧ c ∈ hp.clients ∧ (hp.send c).closed = false ∧
          effs.count (Effect.CloseSend c) = 1) ∧
        (∀ n, e = Event.broadcast n →
          hq.clients = hp.clients ∧ hq.send = hp.send ∧
          ∀ c, Effect.CloseSend c ∉ effs)) := by
  constructor
  · obtain ⟨h, hrun, hsafe⟩ := run_total_of_registered_once B b0 evs hreg
    refine ⟨h, hrun, fun c => ?_⟩
    rw [hsafe.2.2.2.1 c]
    split <;> omega
  · intro pre e post hsplit
    subst hsplit
    obtain ⟨hp, hrun, hsafe⟩ := safe_run B pre (e :: post) (NewHub b0)
      (newHub_safe b0 _ hreg)
    obtain ⟨hq, effs, hstep, hlog, _, hclose, hbroad⟩ := safe_step B hp e post hsafe
    exact ⟨hp, hq, effs, hrun, hstep, hlog, hclose, hbroad⟩

theorem hub_closes_each_queue_at_most_once_witness :
    (∀ c, ([Event.register ⟨1, "u1", ["g1"]⟩, Event.broadcast ⟨"n1", "t", "m", "u1", [], 7⟩,
        Event.unregister ⟨1, "u1", ["g1"]⟩, Event.unregister ⟨1, "u1", ["g1"]⟩]).count
        (Event.register c) ≤ 1) ∧
    ∃ h, Hub.run (tableBroker (fun _ => ([], none)) ([], none) (fun _ => none)) (NewHub ())
        [Event.register ⟨1, "u1", ["g1"]⟩, Event.broadcast ⟨"n1", "t", "m", "u1", [], 7⟩,
          Event.unregister ⟨1, "u1", ["g1"]⟩, Event.unregister ⟨1, "u1", ["g1"]⟩] = some h ∧
      ∀ c, h.trace.count (Effect.CloseSend c) ≤ 1 :=
  have hreg : ∀ c, ([Event.register ⟨1, "u1", ["g1"]⟩,
      Event.broadcast ⟨"n1", "t", "m", "u1", [], 7⟩,
      Event.unregister ⟨1, "u1", ["g1"]⟩, Event.unregister ⟨1, "u1", ["g1"]⟩]).count
      (Event.register c) ≤ 1 := by
    intro c
    simp only [List.count_cons, List.count_nil]
    by_cases hc : c = ⟨1, "u1", ["g1"]⟩
    · simp [hc]
    · have hne : (⟨1, "u1", ["g1"]⟩ : Client) ≠ c := fun heq => hc heq.symm
      simp [hne]
  ⟨hreg, (hub_closes_each_queue_at_most_once
    (tableBroker (fun _ => ([], none)) ([], none) (fun _ => none)) () _ hreg).1⟩

theorem run_append {β : Type} (B : Broker β) (pre post : List Event) (h0 h : Hub β)
    (hrun : Hub.run B h0 (pre ++ post) = some h) :
    ∃ hp, Hub.run B h0 pre = some hp ∧ Hub.run B hp post = some h := by
  induction pre generalizing h0 with
  | nil => exact ⟨h0, rfl, hrun⟩
  | cons e t ih =>
    simp only [List.cons_append, Hub.run] at hrun ⊢
    cases hstep : h0.step B e with
    | none => simp [hstep] at hrun
    | some h1 =>
      simp only [hstep, Option.some_bind] at hrun ⊢
      exact ih h1 hrun

theorem step_unregister_cases {β : Type} (B : Broker β) (h h1 : Hub β) (c : Client)
    (hstep : h.step B (.unregister c) = some h1) :
    (c ∈ h.clients ∧ (h.send c).closed = false ∧
      h1 = { clients := h.clients.filter (fun d => d ≠ c),
             broker := (B.UntrackUser h.broker c.userID c.groupIDs).2,
             send := Function.update h.send c ⟨(h.send c).buf, true⟩,
             log := h.log ++ [(Event.unregister c,
               [Effect.CloseSend c, Effect.UntrackUser c.userID c.groupIDs
                 (B.UntrackUser h.broker c.userID c.groupIDs).1])] }) ∨
    (c ∉ h.clients ∧ h1 = { h with log := h.log ++ [(Event.unregister c, [])] }) := by
  by_cases hin : c ∈ h.clients
  · cases hcl : (h.send c).closed with
    | true => simp [Hub.step, hin, hcl] at hstep
    | false =>
      simp only [Hub.step, hin, hcl, if_true, Bool.false_eq_true, if_false,
        Option.some.injEq] at hstep
      exact Or.inl ⟨hin, rfl, hstep.symm⟩
  · simp only [Hub.step, hin, if_false, Option.some.injEq] at hstep
    exact Or.inr ⟨hin, hstep.symm⟩

theorem step_log {β : Type} (B : Broker β) (h h1 : Hub β) (e : Event)
    (hstep : h.step B e = some h1) : ∃ effs, h1.log = h.log ++ [(e, effs)] := by
  cases e with
  | register c =>
    simp only [Hub.step, Option.some.injEq] at hstep
    exact ⟨_, by rw [← hstep]⟩
  | unregister c =>
    rcases step_unregister_cases B h h1 c hstep with ⟨_, _, heq⟩ | ⟨_, heq⟩
    · exact ⟨_, by rw [heq]⟩
    · exact ⟨_, by rw [heq]⟩
  | broadcast n =>
    simp only [Hub.step, Option.some.injEq] at hstep
    exact ⟨_, by rw [← hstep]⟩

theorem run_log {β : Type} (B : Broker β) (evs : List Event) (h0 h : Hub β)
    (hrun : Hub.run B h0 evs = some h) :
    ∃ l, h.log = h0.log ++ l ∧ l.map (fun it => it.1) = evs := by
  induction evs generalizing h0 with
  | nil =>
    simp only [Hub.run, Option.some.injEq] at hrun
    exact ⟨[], by simp [hrun], rfl⟩
  | cons e t ih =>
    simp only [Hub.run] at hrun
    cases hstep : h0.step B e with
    | none => simp [hstep] at hrun
    | some h1 =>
      simp only [hstep, Option.some_bind] at hrun
      obtain ⟨effs, hl1⟩ := step_log B h0 h1 e hstep
      obtain ⟨l, hl, hm⟩ := ih h1 hrun
      exact ⟨(e, effs) :: l, by simp [hl, hl1], by simp [hm]⟩

theorem brokerCallsFor_append (c : Client) (l1 l2 : List (Event × List Effect)) :
    brokerCallsFor c (l1 ++ l2) = brokerCallsFor c l1 ++ brokerCallsFor c l2 := by
  simp [brokerCallsFor, List.filter_append, List.flatMap_append]

theorem brokerCallsFor_of_other (c : Client) (l : List (Event × List Effect))
    (h1 : Event.register c ∉ l.map (fun it => it.1))
    (h2 : Event.unregister c ∉ l.map (fun it => it.1)) : brokerCallsFor c l = [] := by
  have hf : l.filter (fun it => it.1 = Event.register c ∨ it.1 = Event.unregister c) = [] := by
    rw [List.filter_eq_nil_iff]
    intro it hit
    simp only [decide_eq_true_eq, not_or]
    constructor
    · intro heq
      exact h1 (List.mem_map.mpr ⟨it, hit, heq⟩)
    · intro heq
      exact h2 (List.mem_map.mpr ⟨it, hit, heq⟩)
  unfold brokerCallsFor
  rw [hf]
  rfl

theorem run_absent {β : Type} (B : Broker β) (c : Client) (evs : List Event) (h0 h : Hub β)
    (hc : c ∉ h0.clients) (hreg : Event.register c ∉ evs)
    (hrun : Hub.run B h0 evs = some h) :
    brokerCallsFor c h.log = brokerCallsFor c h0.log := by
  induction evs generalizing h0 with
  | nil =>
    simp only [Hub.run, Option.some.injEq] at hrun
    rw [hrun]
  | cons e t ih =>
    simp only [Hub.run] at hrun
    have hreg1 : Event.register c ∉ t := fun hm => hreg (List.mem_cons_of_mem _ hm)
    have hne : e ≠ Event.register c := fun heq => hreg (heq ▸ List.mem_cons_self _ _)
    cases hstep : h0.step B e with
    | none => simp [hstep] at hrun
    | some h1 =>
      simp only [hstep, Option.some_bind] at hrun
      have hkey : c ∉ h1.clients ∧ brokerCallsFor c h1.log = brokerCallsFor c h0.log := by
        cases e with
        | register d =>
          have hdc : c ≠ d := fun heq => hne (by rw [heq])
          simp only [Hub.step, Option.some.injEq] at hstep
          rw [← hstep]
          refine ⟨?_, ?_⟩
          · split
            · exact hc
            · simp [hc, hdc]
          · rw [brokerCallsFor_append]
            rw [brokerCallsFor_of_other c [_] (by simpa using fun heq => hdc heq)
              (by simp)]
            simp
        | unregister d =>
          rcases step_unregister_cases B h0 h1 d hstep with ⟨hin, _, heq⟩ | ⟨_, heq⟩
          · have hdc : c ≠ d := fun heq => hc (heq ▸ hin)
            rw [heq]
            refine ⟨?_, ?_⟩
            · simp [hc]
            · rw [brokerCallsFor_append]
              rw [brokerCallsFor_of_other c [_] (by simp)
                (by simpa using fun heq => hdc heq)]
              simp
          · rw [heq]
            refine ⟨hc, ?_⟩
            rw [brokerCallsFor_append]
            simp [brokerCallsFor]
        | broadcast n =>
          simp only [Hub.step, Option.some.injEq] at hstep
          rw [← hstep]
          refine ⟨hc, ?_⟩
          rw [brokerCallsFor_append]
          rw [brokerCallsFor_of_other c [_] (by simp) (by simp)]
          simp
      rw [ih h1 hkey.1 hreg1 hrun, hkey.2]

theorem step_keeps_absent {β : Type} (B : Broker β) (c : Client) (e : Event) (h0 h1 : Hub β)
    (hc : c ∉ h0.clients) (hne : e ≠ Event.register c) (hstep : h0.step B e = some h1) :
    c ∉ h1.clients := by
  cases e with
  | register d =>
    have hdc : c ≠ d := fun heq => hne (by rw [heq])
    simp only [Hub.step, Option.some.injEq] at hstep
    rw [← hstep]
    show c ∉ (if d ∈ h0.clients then h0.clients else h0.clients ++ [d])
    split
    · exact hc
    · simp [hc, hdc]
  | unregister d =>
    rcases step_unregister_cases B h0 h1 d hstep with ⟨_, _, heq⟩ | ⟨_, heq⟩
    · rw [heq]
      simp [hc]
    · rw [heq]
      exact hc
  | broadcast n =>
    simp only [Hub.step, Option.some.injEq] at hstep
    rw [← hstep]
    exact hc

theorem run_keeps_absent {β : Type} (B : Broker β) (c : Client) (evs : List Event)
    (h0 h : Hub β) (hc : c ∉ h0.clients) (hreg : Event.register c ∉ evs)
    (hrun : Hub.run B h0 evs = some h) : c ∉ h.clients := by
  induction evs generalizing h0 with
  | nil =>
    simp only [Hub.run, Option.some.injEq] at hrun
    rw [← hrun]
    exact hc
  | cons e t ih =>
    simp only [Hub.run] at hrun
    cases hstep : h0.step B e with
    | none => simp [hstep] at hrun
    | some h1 =>
      simp only [hstep, Option.some_bind] at hrun
      exact ih h1
        (step_keeps_absent B c e h0 h1 hc
          (fun heq => hreg (heq ▸ List.mem_cons_self _ _)) hstep)
        (fun hm => hreg (List.mem_cons_of_mem _ hm)) hrun

theorem later_unregister_leaves_broker {β : Type} (B : Broker β) (c : Client)
    (rest : List Event) (hu h : Hub β) (hc : c ∉ hu.clients)
    (hreg : Event.register c ∉ rest) (hrun : Hub.run B hu rest = some h) :
    ∀ r1 r2, rest = r1 ++ Event.unregister c :: r2 →
      ∃ hx hy, Hub.run B hu r1 = some hx ∧ hx.step B (.unregister c) = some hy ∧
        hy.broker = hx.broker ∧ hy.clients = hx.clients ∧ hy.send = hx.send := by
  intro r1 r2 hsplit
  subst hsplit
  obtain ⟨hx, hrun1, hrun2⟩ := run_append B r1 _ hu h hrun
  have hcx : c ∉ hx.clients :=
    run_keeps_absent B c r1 hu hx hc (fun hm => hreg (List.mem_append_left _ hm)) hrun1
  refine ⟨hx, { hx with log := hx.log ++ [(Event.unregister c, [])] }, hrun1, ?_, rfl, rfl,
    rfl⟩
  simp [Hub.step, hcx]

theorem run_present_split {β : Type} (B : Broker β) (c : Client) (evs : List Event)
    (h0 h : Hub β) (hc : c ∈ h0.clients) (hreg : Event.register c ∉ evs)
    (hrun : Hub.run B h0 evs = some h) :
    (Event.unregister c ∉ evs ∧ brokerCallsFor c h.log = brokerCallsFor c h0.log) ∨
    (∃ mid rest hm hu, evs = mid ++ Event.unregister c :: rest ∧
      Event.unregister c ∉ mid ∧ Hub.run B h0 mid = some hm ∧
      hm.step B (.unregister c) = some hu ∧
      hu.broker = (B.UntrackUser hm.broker c.userID c.groupIDs).2 ∧
      c ∉ hu.clients ∧ Hub.run B hu rest = some h ∧
      brokerCallsFor c h.log = brokerCallsFor c h0.log ++
        [Effect.UntrackUser c.userID c.groupIDs
          (B.UntrackUser hm.broker c.userID c.groupIDs).1]) := by
  induction evs generalizing h0 with
  | nil =>
    simp only [Hub.run, Option.some.injEq] at hrun
    exact Or.inl ⟨by simp, by rw [hrun]⟩
  | cons e t ih =>
    simp only [Hub.run] at hrun
    have hreg1 : Event.register c ∉ t := fun hm => hreg (List.mem_cons_of_mem _ hm)
    have hne : e ≠ Event.register c := fun heq => hreg (heq ▸ List.mem_cons_self _ _)
    cases hstep : h0.step B e with
    | none => simp [hstep] at hrun
    | some h1 =>
      simp only [hstep, Option.some_bind] at hrun
      by_cases hec : e = Event.unregister c
      · subst hec
        rcases step_unregister_cases B h0 h1 c hstep with ⟨_, _, heq⟩ | ⟨hnot, _⟩
        · have hc1 : c ∉ h1.clients := by
            rw [heq]
            simp
          have hcalls := run_absent B c t h1 h hc1 hreg1 hrun
          refine Or.inr ⟨[], t, h0, h1, rfl, by simp, rfl, hstep, by rw [heq], hc1, hrun, ?_⟩
          rw [hcalls, heq]
          simp [brokerCallsFor, List.filter_append, Effect.isBrokerCall]
        · exact absurd hc hnot
      · have hkey : c ∈ h1.clients ∧ brokerCallsFor c h1.log = brokerCallsFor c h0.log := by
          cases e with
          | register d =>
            simp only [Hub.step, Option.some.injEq] at hstep
            rw [← hstep]
            refine ⟨?_, ?_⟩
            · show c ∈ (if d ∈ h0.clients then h0.clients else h0.clients ++ [d])
              split
              · exact hc
              · exact List.mem_append_left _ hc
            · rw [brokerCallsFor_append]
              rw [brokerCallsFor_of_other c [_]
                (by simpa using fun heq => hne (by rw [heq])) (by simp)]
              simp
          | unregister d =>
            have hdc : c ≠ d := fun heq => hec (by rw [heq])
            rcases step_unregister_cases B h0 h1 d hstep with ⟨_, _, heq⟩ | ⟨_, heq⟩
            · rw [heq]
              refine ⟨?_, ?_⟩
              · simp [hc, hdc]
              · rw [brokerCallsFor_append]
                rw [brokerCallsFor_of_other c [_] (by simp)
                  (by simpa using fun heq => hdc heq)]
                simp
            · rw [heq]
              refine ⟨hc, ?_⟩
              rw [brokerCallsFor_append]
              simp [brokerCallsFor]
          | broadcast n =>
            simp only [Hub.step, Option.some.injEq] at hstep
            rw [← hstep]
            refine ⟨hc, ?_⟩
            rw [brokerCallsFor_append]
            rw [brokerCallsFor_of_other c [_] (by simp) (by simp)]
            simp
        rcases ih h1 hkey.1 hreg1 hrun with ⟨hnone, hcalls⟩ | ⟨mid, rest, hm, hu, hsplit, hmid,
          hrunm, hstepu, hbroker, hcu, hrunr, hcalls⟩
        · refine Or.inl ⟨?_, by rw [hcalls, hkey.2]⟩
          intro hmem
          rcases List.mem_cons.mp hmem with heq | hmem1
          · exact hec heq.symm
          · exact hnone hmem1
        · refine Or.inr ⟨e :: mid, rest, hm, hu, by rw [hsplit]; rfl, ?_, ?_, hstepu, hbroker,
            hcu, hrunr, by rw [hcalls, hkey.2]⟩
          · intro hmem
            rcases List.mem_cons.mp hmem with heq | hmem1
            · exact hec heq.symm
            · exact hmid hmem1
          · simp [Hub.run, hstep, hrunm]

/-- C5: take any sequence of events in which the client `c` is registered once and
no unregister event of `c` comes before that registration. If no client is
registered twice, the loop handles the whole sequence. Whenever the loop has
handled the whole sequence, its log holds the events in order, one iteration
each, and the Broker calls made for `c` are: one `TrackUser(c.userID,
c.groupIDs)`, first, followed by exactly one `UntrackUser(c.userID, c.groupIDs)`
when the sequence holds at least one unregister event of `c`, and by nothing
otherwise, however many unregister events of `c` there are. These are calls made
on the Broker: the registration applies `TrackUser` to the Broker in the state the
events before it left, its answer is the one logged, and the Broker is left in the
state `TrackUser` gives; the first unregister event of `c` applies `UntrackUser`
to the Broker in the state the events before it left, its answer is the one
logged, and the Broker is left in the state `UntrackUser` gives; every later
unregister event of `c` leaves the Broker, the registry and the channels as they
are. -/
theorem hub_tracks_once_untracks_once {β : Type} (B : Broker β) (b0 : β) (c : Client)
    (pre post : List Event) (hpre : Event.register c ∉ pre)
    (hpost : Event.register c ∉ post) (hun : Event.unregister c ∉ pre) :
    ((∀ d, (pre ++ Event.register c :: post).count (Event.register d) ≤ 1) →
      ∃ h, Hub.run B (NewHub b0) (pre ++ Event.register c :: post) = some h) ∧
    (∀ h, Hub.run B (NewHub b0) (pre ++ Event.register c :: post) = some h →
      h.log.map (fun it => it.1) = pre ++ Event.register c :: post ∧
      (∃ terr uerr, brokerCallsFor c h.log =
        Effect.TrackUser c.userID c.groupIDs terr ::
          (if Event.unregister c ∈ post
            then [Effect.UntrackUser c.userID c.groupIDs uerr] else [])) ∧
      ∃ hp hr, Hub.run B (NewHub b0) pre = some hp ∧
        hp.step B (.register c) = some hr ∧
        hr.broker = (B.TrackUser hp.broker c.userID c.groupIDs).2 ∧
        Hub.run B hr post = some h ∧
        ((Event.unregister c ∉ post ∧
          brokerCallsFor c h.log =
            [Effect.TrackUser c.userID c.groupIDs
              (B.TrackUser hp.broker c.userID c.groupIDs).1]) ∨
         (∃ mid rest hm hu, post = mid ++ Event.unregister c :: rest ∧
          Event.unregister c ∉ mid ∧ Hub.run B hr mid = some hm ∧
          hm.step B (.unregister c) = some hu ∧
          hu.broker = (B.UntrackUser hm.broker c.userID c.groupIDs).2 ∧
          Hub.run B hu rest = some h ∧
          brokerCallsFor c h.log =
            [Effect.TrackUser c.userID c.groupIDs
              (B.TrackUser hp.broker c.userID c.groupIDs).1,
             Effect.UntrackUser c.userID c.groupIDs
              (B.UntrackUser hm.broker c.userID c.groupIDs).1] ∧
          ∀ r1 r2, rest = r1 ++ Event.unregister c :: r2 →
            ∃ hx hy, Hub.run B hu r1 = some hx ∧ hx.step B (.unregister c) = some hy ∧
              hy.broker = hx.broker ∧ hy.clients = hx.clients ∧ hy.send = hx.send))) := by
  constructor
  · intro hreg
    obtain ⟨h, hrun, _⟩ := run_total_of_registered_once B b0 _ hreg
    exact ⟨h, hrun⟩
  · intro h hrun
    obtain ⟨hp, hrunp, hrest⟩ := run_append B pre _ _ h hrun
    obtain ⟨l, hl, hm⟩ := run_log B _ _ hp hrunp
    have hpcalls : brokerCallsFor c hp.log = [] := by
      rw [hl]
      apply brokerCallsFor_of_other
      · simpa [NewHub, hm] using hpre
      · simpa [NewHub, hm] using hun
    have hstepr : hp.step B (.register c) = some
        { clients := if c ∈ hp.clients then hp.clients else hp.clients ++ [c],
          broker := (B.TrackUser hp.broker c.userID c.groupIDs).2,
          send := hp.send,
          log := hp.log ++ [(Event.register c,
            [Effect.TrackUser c.userID c.groupIDs
              (B.TrackUser hp.broker c.userID c.groupIDs).1])] } := rfl
    simp only [Hub.run, hstepr, Option.some_bind] at hrest
    have hcin : c ∈ (if c ∈ hp.clients then hp.clients else hp.clients ++ [c]) := by
      split
      · assumption
      · simp
    have hrcalls : brokerCallsFor c (hp.log ++ [(Event.register c,
        [Effect.TrackUser c.userID c.groupIDs
          (B.TrackUser hp.broker c.userID c.groupIDs).1])]) =
        [Effect.TrackUser c.userID c.groupIDs
          (B.TrackUser hp.broker c.userID c.groupIDs).1] := by
      rw [brokerCallsFor_append, hpcalls]
      simp [brokerCallsFor, Effect.isBrokerCall]
    have hsplit := run_present_split B c post _ h hcin hpost hrest
    refine ⟨?_, ?_, hp, _, hrunp, hstepr, rfl, hrest, ?_⟩
    · obtain ⟨l2, hl2, hm2⟩ := run_log B _ _ h hrun
      rw [hl2]
      simpa [NewHub] using hm2
    · rcases hsplit with ⟨hnone, hcalls⟩ | ⟨mid, rest, hm1, hu, hsp, _, _, _, _, _, _, hcalls⟩
      · refine ⟨(B.TrackUser hp.broker c.userID c.groupIDs).1, none, ?_⟩
        rw [hcalls, hrcalls]
        simp [hnone]
      · refine ⟨(B.TrackUser hp.broker c.userID c.groupIDs).1,
          (B.UntrackUser hm1.broker c.userID c.groupIDs).1, ?_⟩
        rw [hcalls, hrcalls]
        have hmem : Event.unregister c ∈ post := by
          rw [hsp]
          simp
        simp only [hmem, if_true]
        rfl
    · rcases hsplit with ⟨hnone, hcalls⟩ | ⟨mid, rest, hm1, hu, hsp, hmid, hrunm, hstepu, hbu,
        hcu, hrunr, hcalls⟩
      · exact Or.inl ⟨hnone, by rw [hcalls, hrcalls]⟩
      · refine Or.inr ⟨mid, rest, hm1, hu, hsp, hmid, hrunm, hstepu, hbu, hrunr, ?_, ?_⟩
        · rw [hcalls, hrcalls]
          rfl
        · exact later_unregister_leaves_broker B c rest hu h hcu
            (fun hmem => hpost (by rw [hsp]; simp [hmem])) hrunr

theorem hub_tracks_once_untracks_once_witness :
    Event.register ⟨1, "u1", ["g1"]⟩ ∉ [Event.register ⟨2, "u1", ["g1"]⟩] ∧
    Event.register ⟨1, "u1", ["g1"]⟩ ∉
      [Event.unregister ⟨2, "u1", ["g1"]⟩, Event.unregister ⟨1, "u1", ["g1"]⟩,
        Event.unregister ⟨1, "u1", ["g1"]⟩] ∧
    Event.unregister ⟨1, "u1", ["g1"]⟩ ∉ [Event.register ⟨2, "u1", ["g1"]⟩] ∧
    ∃ h, Hub.run (countingBroker (fun _ => ([], none)) ([], none) (fun _ => none)
          (fun u => if u = "u1" then some "presence store down" else none))
        (NewHub 0)
        ([Event.register ⟨2, "u1", ["g1"]⟩] ++ Event.register ⟨1, "u1", ["g1"]⟩ ::
          [Event.unregister ⟨2, "u1", ["g1"]⟩, Event.unregister ⟨1, "u1", ["g1"]⟩,
            Event.unregister ⟨1, "u1", ["g1"]⟩]) = some h ∧
      brokerCallsFor ⟨1, "u1", ["g1"]⟩ h.log =
        [Effect.TrackUser "u1" ["g1"] (some "presence store down"),
         Effect.UntrackUser "u1" ["g1"] (some "presence store down")] ∧
      h.broker = 4 := by
  refine ⟨by decide, by decide, by decide, ?_⟩
  have key := hub_tracks_once_untracks_once
    (countingBroker (fun _ => ([], none)) ([], none) (fun _ => none)
      (fun u => if u = "u1" then some "presence store down" else none)) 0 ⟨1, "u1", ["g1"]⟩
    [Event.register ⟨2, "u1", ["g1"]⟩]
    [Event.unregister ⟨2, "u1", ["g1"]⟩, Event.unregister ⟨1, "u1", ["g1"]⟩,
      Event.unregister ⟨1, "u1", ["g1"]⟩] (by decide) (by decide) (by decide)
  obtain ⟨h, hrun⟩ := key.1 (by
    intro d
    simp only [List.cons_append, List.nil_append, List.count_cons, List.count_nil]
    by_cases h1 : (⟨1, "u1", ["g1"]⟩ : Client) = d
    · subst h1
      simp
    · by_cases h2 : (⟨2, "u1", ["g1"]⟩ : Client) = d
      · subst h2
        simp
      · simp [h1, h2])
  have h2 := Option.some.inj hrun
  refine ⟨h, hrun, ?_, ?_⟩
  · rw [← h2]
    decide
  · rw [← h2]
    decide

/-! ### WritePump on a closed queue -/

theorem framesNoPing_append (a b : List (Frame × Bool)) :
    framesNoPing (a ++ b) = framesNoPing a ++ framesNoPing b := by
  induction a with
  | nil => rfl
  | cons x t ih =>
    obtain ⟨f, e⟩ := x
    cases f <;> simp [framesNoPing, ih]

theorem writePump_all_ok (fail : Nat → Bool) (body : List Select) (q : List Notification)
    (log : List (Frame × Bool)) (hrecv : receives body = q.map some)
    (hok : ∀ i, log.length ≤ i → i < log.length + body.length → fail i = false) :
    (WritePump fail (body ++ [Select.recv none]) log).exited = true ∧
    framesNoPing (WritePump fail (body ++ [Select.recv none]) log).writes =
      framesNoPing log ++ q.map Frame.json ++ [Frame.close] ∧
    (WritePump fail (body ++ [Select.recv none]) log).writes.getLast? =
      some (Frame.close, fail (log.length + body.length)) := by
  induction body generalizing q log with
  | nil =>
    cases q with
    | nil => simp [WritePump, framesNoPing_append, framesNoPing]
    | cons m t => simp [receives] at hrecv
  | cons sel rest ih =>
    have h0 : fail log.length = false := hok _ (le_refl _) (by simp)
    have hok1 : ∀ (x : Frame × Bool) (i : Nat), (log ++ [x]).length ≤ i →
        i < (log ++ [x]).length + rest.length → fail i = false := by
      intro x i h1 h2
      simp only [List.length_append, List.length_singleton] at h1 h2
      exact hok i (by omega) (by simp only [List.length_cons]; omega)
    cases sel with
    | tick =>
      obtain ⟨e1, e2, e3⟩ := ih q (log ++ [(Frame.ping, false)]) (by simpa [receives] using hrecv)
        (hok1 _)
      simp only [List.cons_append, WritePump, h0, Bool.false_eq_true, if_false, List.append_eq]
      refine ⟨e1, ?_, ?_⟩
      · rw [e2]
        simp [framesNoPing_append, framesNoPing]
      · rw [e3]
        simp only [List.length_append, List.length_singleton, List.length_cons, List.length_nil]
        congr 3
        omega
    | recv m =>
      cases m with
      | none =>
        cases q with
        | nil => simp [receives] at hrecv
        | cons m t => simp [receives] at hrecv
      | some m =>
        cases q with
        | nil => simp [receives] at hrecv
        | cons m1 t =>
          simp only [receives, List.map_cons, List.cons.injEq, Option.some.injEq] at hrecv
          obtain ⟨e1, e2, e3⟩ := ih t (log ++ [(Frame.json m, false)]) hrecv.2 (hok1 _)
          simp only [List.cons_append, WritePump, h0, Bool.false_eq_true, if_false, List.append_eq]
          refine ⟨e1, ?_, ?_⟩
          · rw [e2, hrecv.1]
            simp [framesNoPing_append, framesNoPing]
          · rw [e3]
            simp only [List.length_append, List.length_singleton, List.length_cons, List.length_nil]
            congr 3
            omega

theorem writePump_failure (fail : Nat → Bool) (body : List Select) (q : List Notification)
    (log : List (Frame × Bool)) (hrecv : receives body = q.map some)
    (hlog : ∀ x ∈ log, x.1 ≠ Frame.close)
    (hbad : ∃ i, log.length ≤ i ∧ i < log.length + body.length ∧ fail i = true) :
    (WritePump fail (body ++ [Select.recv none]) log).exited = true ∧
    ∀ x ∈ (WritePump fail (body ++ [Select.recv none]) log).writes, x.1 ≠ Frame.close := by
  induction body generalizing q log with
  | nil =>
    obtain ⟨i, h1, h2, _⟩ := hbad
    simp at h2
    omega
  | cons sel rest ih =>
    have hnext : ∀ x : Frame × Bool, x.1 ≠ Frame.close → fail log.length = false →
        (∀ y ∈ log ++ [x], y.1 ≠ Frame.close) ∧
        ∃ i, (log ++ [x]).length ≤ i ∧ i < (log ++ [x]).length + rest.length ∧
          fail i = true := by
      intro x hx h0
      constructor
      · intro y hy
        rcases List.mem_append.mp hy with hy | hy
        · exact hlog y hy
        · rw [List.mem_singleton.mp hy]
          exact hx
      · obtain ⟨i, h1, h2, h3⟩ := hbad
        have hne : i ≠ log.length := by
          intro heq
          rw [heq, h0] at h3
          cases h3
        refine ⟨i, ?_, ?_, h3⟩
        · simp only [List.length_append, List.length_singleton]
          omega
        · simp only [List.length_append, List.length_singleton, List.length_cons] at h2 ⊢
          omega
    have hstop : ∀ x : Frame × Bool, x.1 ≠ Frame.close →
        ∀ y ∈ log ++ [x], y.1 ≠ Frame.close := by
      intro x hx y hy
      rcases List.mem_append.mp hy with hy | hy
      · exact hlog y hy
      · rw [List.mem_singleton.mp hy]
        exact hx
    cases sel with
    | tick =>
      cases h0 : fail log.length with
      | true =>
        simp only [List.cons_append, WritePump, h0, if_true, List.append_eq]
        exact ⟨trivial, hstop (Frame.ping, true) (by simp)⟩
      | false =>
        simp only [List.cons_append, WritePump, h0, Bool.false_eq_true, if_false, List.append_eq]
        obtain ⟨hl, hb⟩ := hnext (Frame.ping, false) (by simp) h0
        exact ih q _ (by simpa [receives] using hrecv) hl hb
    | recv m =>
      cases m with
      | none =>
        cases q with
        | nil => simp [receives] at hrecv
        | cons m t => simp [receives] at hrecv
      | some m =>
        cases q with
        | nil => simp [receives] at hrecv
        | cons m1 t =>
          simp only [receives, List.map_cons, List.cons.injEq, Option.some.injEq] at hrecv
          cases h0 : fail log.length with
          | true =>
            simp only [List.cons_append, WritePump, h0, if_true, List.append_eq]
            exact ⟨trivial, hstop (Frame.json m, true) (by simp)⟩
          | false =>
            simp only [List.cons_append, WritePump, h0, Bool.false_eq_true, if_false, List.append_eq]
            obtain ⟨hl, hb⟩ := hnext (Frame.json m, false) (by simp) h0
            exact ih t _ hrecv.2 hl hb

theorem receives_no_close (body : List Select) (q : List Notification)
    (hrecv : receives body = q.map some) : ∀ s ∈ body, s ≠ Select.recv none := by
  induction body generalizing q with
  | nil => simp
  | cons sel rest ih =>
    intro s hs
    cases sel with
    | tick =>
      rcases List.mem_cons.mp hs with h | h
      · rw [h]
        simp
      · exact ih q (by simpa [receives] using hrecv) s h
    | recv m =>
      cases q with
      | nil => simp [receives] at hrecv
      | cons m1 t =>
        simp only [receives, List.map_cons, List.cons.injEq] at hrecv
        rcases List.mem_cons.mp hs with h | h
        · rw [h, hrecv.1]
          simp
        · exact ih t hrecv.2 s h

theorem writePump_no_failure (fail : Nat → Bool) (body : List Select)
    (log : List (Frame × Bool)) (hbody : ∀ s ∈ body, s ≠ Select.recv none)
    (hok : ∀ j, j < body.length → fail (log.length + j) = false) :
    WritePump fail (body ++ [Select.recv none]) log =
      ⟨log ++ body.map (fun s => (frameOf s, false)) ++
        [(Frame.close, fail (log.length + body.length))], true⟩ := by
  induction body generalizing log with
  | nil => simp [WritePump]
  | cons sel rest ih =>
    have h0 : fail log.length = false := by simpa using hok 0 (by simp)
    have hrest : ∀ s ∈ rest, s ≠ Select.recv none :=
      fun s hs => hbody s (List.mem_cons_of_mem _ hs)
    have hok1 : ∀ (x : Frame × Bool) (j : Nat), j < rest.length →
        fail ((log ++ [x]).length + j) = false := by
      intro x j hj
      have := hok (j + 1) (by simp only [List.length_cons]; omega)
      simp only [List.length_append, List.length_singleton]
      rw [show log.length + 1 + j = log.length + (j + 1) by omega]
      exact this
    have hlen : ∀ x : Frame × Bool,
        (log ++ [x]).length + rest.length = log.length + (sel :: rest).length := by
      intro x
      simp only [List.length_append, List.length_singleton, List.length_cons,
        List.length_nil]
      omega
    cases sel with
    | tick =>
      simp only [List.cons_append, WritePump, h0, Bool.false_eq_true, if_false, List.append_eq]
      rw [ih _ hrest (hok1 _), hlen]
      simp [frameOf]
    | recv m =>
      cases m with
      | none => exact absurd rfl (hbody _ (List.mem_cons_self _ _))
      | some m =>
        simp only [List.cons_append, WritePump, h0, Bool.false_eq_true, if_false,
          List.append_eq]
        rw [ih _ hrest (hok1 _), hlen]
        simp [frameOf]

theorem writePump_first_failure (fail : Nat → Bool) (body tail : List Select)
    (log : List (Frame × Bool)) (hbody : ∀ s ∈ body, s ≠ Select.recv none) (i : Nat)
    (hi : i < body.length) (hfail : fail (log.length + i) = true)
    (hok : ∀ j, j < i → fail (log.length + j) = false) :
    ∃ s, body[i]? = some s ∧
      WritePump fail (body ++ tail) log =
        ⟨log ++ (body.take i).map (fun x => (frameOf x, false)) ++ [(frameOf s, true)],
          true⟩ := by
  induction body generalizing log i with
  | nil => simp at hi
  | cons sel rest ih =>
    have hrest : ∀ s ∈ rest, s ≠ Select.recv none :=
      fun s hs => hbody s (List.mem_cons_of_mem _ hs)
    have hsel : sel ≠ Select.recv none := hbody sel (List.mem_cons_self _ _)
    cases i with
    | zero =>
      have h0 : fail log.length = true := by simpa using hfail
      refine ⟨sel, by simp, ?_⟩
      cases sel with
      | tick => simp [WritePump, h0, frameOf]
      | recv m =>
        cases m with
        | none => exact absurd rfl hsel
        | some m => simp [WritePump, h0, frameOf]
    | succ k =>
      have h0 : fail log.length = false := by simpa using hok 0 (by omega)
      have hstep : ∀ x : Frame × Bool,
          ∃ s, rest[k]? = some s ∧
            WritePump fail (rest ++ tail) (log ++ [x]) =
              ⟨(log ++ [x]) ++ (rest.take k).map (fun y => (frameOf y, false)) ++
                [(frameOf s, true)], true⟩ := by
        intro x
        apply ih (log ++ [x]) hrest k (by simpa using hi)
        · simp only [List.length_append, List.length_singleton]
          rw [show log.length + 1 + k = log.length + (k + 1) by omega]
          exact hfail
        · intro j hj
          simp only [List.length_append, List.length_singleton]
          rw [show log.length + 1 + j = log.length + (j + 1) by omega]
          exact hok (j + 1) (by omega)
      cases sel with
      | tick =>
        obtain ⟨s, hs, hw⟩ := hstep (Frame.ping, false)
        refine ⟨s, by simpa using hs, ?_⟩
        simp only [List.cons_append, WritePump, h0, Bool.false_eq_true, if_false,
          List.append_eq]
        rw [hw]
        simp [frameOf]
      | recv m =>
        cases m with
        | none => exact absurd rfl hsel
        | some m =>
          obtain ⟨s, hs, hw⟩ := hstep (Frame.json m, false)
          refine ⟨s, by simpa using hs, ?_⟩
          simp only [List.cons_append, WritePump, h0, Bool.false_eq_true, if_false,
            List.append_eq]
          rw [hw]
          simp [frameOf]

/-- C8 as the code has it: a closed queue holding `q` makes `select` deliver `q` in
order and then the closed-and-drained receive, with ticks anywhere in between
(`body`). `WritePump` then always returns. When no write before the Close frame
fails, its writes are exactly one frame for each thing delivered, in order, the
notifications of `q` in queue order (pings apart), and its last write is the Close
frame. When a write before the Close frame fails, the first write that fails is
its last write: the writes are those before it, all successful, and the failed
one; nothing of the queue is written after it and no Close frame is written. -/
theorem writePump_closed_queue (fail : Nat → Bool) (body : List Select)
    (q : List Notification) (hrecv : receives body = q.map some) :
    (WritePump fail (body ++ [Select.recv none]) []).exited = true ∧
    ((∀ i, i < body.length → fail i = false) →
      framesNoPing (WritePump fail (body ++ [Select.recv none]) []).writes =
        q.map Frame.json ++ [Frame.close] ∧
      (WritePump fail (body ++ [Select.recv none]) []).writes.getLast? =
        some (Frame.close, fail body.length)) ∧
    ((∃ i, i < body.length ∧ fail i = true) →
      ∀ x ∈ (WritePump fail (body ++ [Select.recv none]) []).writes,
        x.1 ≠ Frame.close) ∧
    ((∀ i, i < body.length → fail i = false) →
      WritePump fail (body ++ [Select.recv none]) [] =
        ⟨body.map (fun s => (frameOf s, false)) ++ [(Frame.close, fail body.length)],
          true⟩) ∧
    (∀ i, i < body.length → fail i = true → (∀ j, j < i → fail j = false) →
      ∃ s, body[i]? = some s ∧ s ≠ Select.recv none ∧
        WritePump fail (body ++ [Select.recv none]) [] =
          ⟨(body.take i).map (fun x => (frameOf x, false)) ++ [(frameOf s, true)], true⟩ ∧
        (WritePump fail (body ++ [Select.recv none]) []).writes.length = i + 1 ∧
        (WritePump fail (body ++ [Select.recv none]) []).writes.getLast? =
          some (frameOf s, true)) := by
  have hcases : (∀ i, i < body.length → fail i = false) ∨
      ∃ i, i < body.length ∧ fail i = true := by
    by_cases h : ∃ i, i < body.length ∧ fail i = true
    · exact Or.inr h
    · left
      intro i hi
      by_contra hf
      exact h ⟨i, hi, by simpa using hf⟩
  have hgood : (∀ i, i < body.length → fail i = false) →
      (WritePump fail (body ++ [Select.recv none]) []).exited = true ∧
      framesNoPing (WritePump fail (body ++ [Select.recv none]) []).writes =
        q.map Frame.json ++ [Frame.close] ∧
      (WritePump fail (body ++ [Select.recv none]) []).writes.getLast? =
        some (Frame.close, fail body.length) := by
    intro hok
    have := writePump_all_ok fail body q [] hrecv (by simpa using hok)
    simpa [framesNoPing] using this
  have hbadc : (∃ i, i < body.length ∧ fail i = true) →
      (WritePump fail (body ++ [Select.recv none]) []).exited = true ∧
      ∀ x ∈ (WritePump fail (body ++ [Select.recv none]) []).writes,
        x.1 ≠ Frame.close := by
    intro hbad
    obtain ⟨i, hi, hf⟩ := hbad
    exact writePump_failure fail body q [] hrecv (by simp) ⟨i, by simp, by simpa using hi, hf⟩
  have hbody := receives_no_close body q hrecv
  refine ⟨?_, fun hok => (hgood hok).2, fun hbad => (hbadc hbad).2, ?_, ?_⟩
  · rcases hcases with hok | hbad
    · exact (hgood hok).1
    · exact (hbadc hbad).1
  · intro hok
    have := writePump_no_failure fail body [] hbody (by simpa using hok)
    simpa using this
  · intro i hi hfail hok
    obtain ⟨s, hs, hw⟩ := writePump_first_failure fail body [Select.recv none] [] hbody i hi
      (by simpa using hfail) (by simpa using hok)
    have hmem : s ∈ body := List.getElem?_mem hs
    have hw1 : WritePump fail (body ++ [Select.recv none]) [] =
        ⟨(body.take i).map (fun x => (frameOf x, false)) ++ [(frameOf s, true)], true⟩ := by
      simpa using hw
    refine ⟨s, hs, hbody s hmem, hw1, ?_, ?_⟩
    · rw [hw1]
      simp only [List.length_append, List.length_map, List.length_take, List.length_singleton]
      omega
    · rw [hw1]
      simp

theorem writePump_closed_queue_witness :
    receives [Select.recv (some ⟨"n1", "t", "m", "", [], 1⟩), Select.tick,
        Select.recv (some ⟨"n2", "t", "m", "", [], 2⟩)] =
      [⟨"n1", "t", "m", "", [], 1⟩, ⟨"n2", "t", "m", "", [], 2⟩].map some ∧
    (WritePump (fun _ => false)
      ([Select.recv (some ⟨"n1", "t", "m", "", [], 1⟩), Select.tick,
        Select.recv (some ⟨"n2", "t", "m", "", [], 2⟩)] ++ [Select.recv none]) []).exited
      = true ∧
    framesNoPing (WritePump (fun _ => false)
      ([Select.recv (some ⟨"n1", "t", "m", "", [], 1⟩), Select.tick,
        Select.recv (some ⟨"n2", "t", "m", "", [], 2⟩)] ++ [Select.recv none]) []).writes =
      [⟨"n1", "t", "m", "", [], 1⟩, ⟨"n2", "t", "m", "", [], 2⟩].map Frame.json
        ++ [Frame.close] :=
  have key := writePump_closed_queue (fun _ => false)
    [Select.recv (some ⟨"n1", "t", "m", "", [], 1⟩), Select.tick,
      Select.recv (some ⟨"n2", "t", "m", "", [], 2⟩)]
    [⟨"n1", "t", "m", "", [], 1⟩, ⟨"n2", "t", "m", "", [], 2⟩] (by decide)
  ⟨by decide, key.1, (key.2.1 (fun _ _ => rfl)).1⟩

/-- C8, the claim as written fails: the queue holds one notification when it is
closed and the `WriteJSON` of that notification returns an error. `WritePump`
returns after that one write; no Close frame is written. -/
theorem writePump_failed_write_skips_close_frame :
    WritePump (fun i => decide (i = 0))
      [Select.recv (some ⟨"n1", "t", "m", "", [], 1⟩), Select.recv none] [] =
      ⟨[(Frame.json ⟨"n1", "t", "m", "", [], 1⟩, true)], true⟩ ∧
    Frame.close ∉ (WritePump (fun i => decide (i = 0))
      [Select.recv (some ⟨"n1", "t", "m", "", [], 1⟩), Select.recv none] []).writes.map
        (fun x => x.1) := by
  decide

/-! ### The Notification envelope -/

theorem char_eq_ofNat (c : Char) (n : Nat) (h : c.toNat = n) : c = Char.ofNat n := by
  rw [← h, Char.ofNat_toNat]

theorem unquote_escapeChar_ascii (n : Nat) (hn : n < 128) (fuel : Nat) (rest : List Char) :
    unquote (fuel + 1) (escapeChar (Char.ofNat n) ++ rest) =
      consChar (Char.ofNat n) (unquote fuel rest) := by
  interval_cases n <;> rfl

theorem unquote_escapeChar (c : Char) (fuel : Nat) (rest : List Char) :
    unquote (fuel + 1) (escapeChar c ++ rest) = consChar c (unquote fuel rest) := by
  by_cases h128 : c.toNat < 128
  · have hc := char_eq_ofNat c c.toNat rfl
    rw [hc]
    exact unquote_escapeChar_ascii c.toNat h128 fuel rest
  · by_cases hls : c.toNat = 0x2028
    · rw [char_eq_ofNat c _ hls]
      rfl
    · by_cases hps : c.toNat = 0x2029
      · rw [char_eq_ofNat c _ hps]
        rfl
      · have h34 : c.toNat ≠ 34 := by omega
        have h92 : c.toNat ≠ 92 := by omega
        have h32 : ¬ c.toNat < 32 := by omega
        simp [escapeChar, h128, hls, hps, unquote, h34, h92, h32]

theorem unquote_escapeChars (s : List Char) (rest : List Char) (fuel : Nat)
    (hf : (escapeChars s).length < fuel) :
    unquote fuel (escapeChars s ++ dquote :: rest) = some (s, rest) := by
  induction s generalizing fuel with
  | nil =>
    cases fuel with
    | zero => simp at hf
    | succ f => rfl
  | cons c t ih =>
    cases fuel with
    | zero => simp at hf
    | succ f =>
      have hlen : 0 < (escapeChar c).length := by
        unfold escapeChar
        split_ifs <;> simp
      have hf1 : (escapeChars t).length < f := by
        simp only [escapeChars, List.length_append] at hf
        omega
      simp only [escapeChars, List.append_assoc]
      rw [unquote_escapeChar, ih f hf1]
      rfl

theorem unquote_encodeString_tail (s : String) (rest : List Char) :
    unquote (escapeChars s.data ++ [dquote] ++ rest).length
      (escapeChars s.data ++ [dquote] ++ rest) = some (s.data, rest) := by
  have := unquote_escapeChars s.data rest (escapeChars s.data ++ [dquote] ++ rest).length
    (by simp)
  simpa using this

theorem decodeStringValue_encodeString (depth : Nat) (cur : List UInt8) (s : String)
    (rest : List Char) :
    decodeStringValue depth cur (encodeString s ++ rest) = some (utf8 s.data, none, rest) := by
  have h := unquote_encodeString_tail s rest
  have hq : dquote.toNat = 34 := rfl
  simp only [encodeString, List.cons_append, decodeStringValue, hq, if_true]
  rw [h]
  rfl

theorem digit_toNat (k : Nat) (hk : k < 10) : (Char.ofNat (48 + k)).toNat = 48 + k := by
  interval_cases k <;> rfl

theorem isDigit_digit (k : Nat) (hk : k < 10) : isDigit (Char.ofNat (48 + k)) = true := by
  interval_cases k <;> rfl

theorem digitsVal_snoc (a : List Char) (x : Char) :
    digitsVal (a ++ [x]) = digitsVal a * 10 + (x.toNat - 48) := by
  simp [digitsVal, List.foldl_append]

theorem formatNat_spec (fuel n : Nat) (acc : List Char) (h : n ≤ fuel) :
    ∃ d ds, formatNat fuel n acc = d :: (ds ++ acc) ∧ isDigit d = true ∧
      (∀ c ∈ ds, isDigit c = true) ∧ (d.toNat = 48 → ds = []) ∧ digitsVal (d :: ds) = n := by
  induction fuel generalizing n acc with
  | zero =>
    have hn : n = 0 := by omega
    subst hn
    exact ⟨Char.ofNat 48, [], rfl, rfl, by simp, fun _ => rfl, rfl⟩
  | succ f ih =>
    by_cases h10 : n < 10
    · refine ⟨Char.ofNat (48 + n), [], by simp [formatNat, h10], isDigit_digit n h10, by simp,
        fun _ => rfl, ?_⟩
      simp [digitsVal, digit_toNat n h10]
    · obtain ⟨d, ds, hfmt, hd, hds, hz, hv⟩ :=
        ih (n / 10) (Char.ofNat (48 + n % 10) :: acc) (by omega)
      have hmod : n % 10 < 10 := Nat.mod_lt _ (by omega)
      refine ⟨d, ds ++ [Char.ofNat (48 + n % 10)], ?_, hd, ?_, ?_, ?_⟩
      · simp [formatNat, h10, hfmt]
      · intro c hc
        rcases List.mem_append.mp hc with hc | hc
        · exact hds c hc
        · rw [List.mem_singleton.mp hc]
          exact isDigit_digit _ hmod
      · intro h48
        have hds0 := hz h48
        subst hds0
        have : digitsVal [d] = n / 10 := hv
        simp only [digitsVal, List.foldl_cons, List.foldl_nil, h48] at this
        omega
      · have : digitsVal ((d :: ds) ++ [Char.ofNat (48 + n % 10)]) = n := by
          rw [digitsVal_snoc, hv, digit_toNat _ hmod]
          omega
        simpa using this

theorem takeWhile_digits (ds : List Char) (e : Char) (r : List Char)
    (hds : ∀ c ∈ ds, isDigit c = true) (he : isDigit e = false) :
    (ds ++ e :: r).takeWhile isDigit = ds ∧ (ds ++ e :: r).dropWhile isDigit = e :: r := by
  induction ds with
  | nil => simp [List.takeWhile, List.dropWhile, he]
  | cons c t ih =>
    have hc : isDigit c = true := hds c (List.mem_cons_self _ _)
    obtain ⟨h1, h2⟩ := ih (fun x hx => hds x (List.mem_cons_of_mem _ hx))
    simp [List.takeWhile, List.dropWhile, hc, h1, h2]

theorem scanUnsigned_formatNat (n : Nat) (e : Char) (r : List Char) (he : endsNumber e) :
    ∃ lit, formatNat n n [] = lit ∧ scanUnsigned (lit ++ e :: r) = some (lit, e :: r) ∧
      lit.all isDigit = true ∧ digitsVal lit = n ∧ lit ≠ [] ∧
      (∀ c ∈ lit.head?, c.toNat ≠ 45 ∧ c.toNat ≠ 110 ∧ c.toNat ≠ 34 ∧ c.toNat ≠ 91 ∧
        c.toNat ≠ 123 ∧ c.toNat ≠ 116 ∧ c.toNat ≠ 102) := by
  obtain ⟨d, ds, hfmt, hd, hds, hz, hv⟩ := formatNat_spec n n [] (le_refl _)
  obtain ⟨he1, he2, he3, he4⟩ := he
  have htd := takeWhile_digits ds e r hds he1
  refine ⟨d :: ds, by simpa using hfmt, ?_, ?_, hv, by simp, ?_⟩
  · have hfrac : scanFrac (e :: r) = some ([], e :: r) := by simp [scanFrac, he2]
    have hexp : scanExp (e :: r) = some ([], e :: r) := by simp [scanExp, he3, he4]
    by_cases h48 : d.toNat = 48
    · have hds0 := hz h48
      subst hds0
      simp [scanUnsigned, hd, h48, hfrac, hexp]
    · simp [scanUnsigned, hd, h48, htd.1, htd.2, hfrac, hexp]
  · simp only [List.all_cons, hd, Bool.true_and, List.all_eq_true]
    exact hds
  · intro c hc
    simp only [List.head?_cons, Option.mem_def, Option.some.injEq] at hc
    subst hc
    simp only [isDigit, Bool.and_eq_true, decide_eq_true_eq] at hd
    omega

theorem decodeIntValue_encodeInt (depth : Nat) (cur i : Int) (e : Char) (r : List Char)
    (he : endsNumber e) (hlo : -(2 : Int) ^ 63 ≤ i) (hhi : i < (2 : Int) ^ 63) :
    decodeIntValue depth cur (encodeInt i ++ e :: r) = some (i, none, e :: r) := by
  obtain ⟨lit, hfmt, hscan, hall, hval, hne, hhead⟩ := scanUnsigned_formatNat i.natAbs e r he
  cases lit with
  | nil => exact absurd rfl hne
  | cons d ds =>
    obtain ⟨h45, h110, h34, h91, h123, h116, h102⟩ := hhead d (by simp)
    by_cases hneg : i < 0
    · have hm : ('-' : Char).toNat = 45 := rfl
      have hbound : digitsVal (d :: ds) ≤ 2 ^ 63 := by
        rw [hval]
        omega
      have hi : -((digitsVal (d :: ds) : Nat) : Int) = i := by
        rw [hval]
        omega
      simp only [encodeInt, hneg, if_true, hfmt, List.cons_append, decodeIntValue, hm]
      simp only [show ¬ (45 = 110) by decide, if_false,
        show ¬ (45 = 34 ∨ 45 = 91 ∨ 45 = 123 ∨ 45 = 116 ∨ 45 = 102) by decide,
        scanNumber, hm, if_true]
      rw [show d :: (ds ++ e :: r) = (d :: ds) ++ e :: r by rfl, hscan]
      simp only [parseInt64, hm, if_true, hall, hbound, ne_eq, not_false_eq_true, and_self,
        reduceCtorEq, hi]
    · have hbound : digitsVal (d :: ds) < 2 ^ 63 := by
        rw [hval]
        omega
      have hi : ((digitsVal (d :: ds) : Nat) : Int) = i := by
        rw [hval]
        omega
      simp only [encodeInt, hneg, if_false, hfmt, List.cons_append, decodeIntValue, h110,
        h34, h91, h123, h116, h102, or_self, scanNumber, h45]
      rw [show d :: (ds ++ e :: r) = (d :: ds) ++ e :: r by rfl, hscan]
      simp only [parseInt64, h45, if_false, hall, hbound, and_self, if_true, hi]

theorem saveError_none (err : GoError) : saveError err none = err := by
  cases err <;> rfl

theorem skipSpace_cons (c : Char) (r : List Char) (hc : isSpace c = false) :
    skipSpace (c :: r) = c :: r := by
  simp [skipSpace, hc]

theorem encodeElems_head (l : List String) (hl : l ≠ []) :
    ∃ tl, encodeElems l = dquote :: tl := by
  cases l with
  | nil => exact absurd rfl hl
  | cons s t =>
    cases t with
    | nil => exact ⟨_, rfl⟩
    | cons s1 t1 => exact ⟨_, rfl⟩

theorem encodeElems_length (l : List String) : l.length ≤ (encodeElems l).length := by
  induction l with
  | nil => simp
  | cons s t ih =>
    cases t with
    | nil => simp [encodeElems, encodeString]
    | cons s1 t1 =>
      simp only [encodeElems, encodeString, List.length_append, List.length_cons] at ih ⊢
      omega

theorem decodeElems_encodeElems (l : List String) (hl : l ≠ []) (fuel depth : Nat)
    (backing acc : List (List UInt8)) (err : GoError) (rest : List Char)
    (hf : l.length ≤ fuel) :
    decodeElems fuel depth backing acc err (encodeElems l ++ ']' :: rest) =
      some (acc ++ l.map (fun s => utf8 s.data), err, rest) := by
  induction l generalizing fuel acc with
  | nil => exact absurd rfl hl
  | cons s t ih =>
    cases fuel with
    | zero => simp at hf
    | succ f =>
      cases t with
      | nil =>
        simp only [encodeElems, decodeElems, decodeStringValue_encodeString]
        rw [skipSpace_cons ']' _ rfl]
        simp only [show (']' : Char).toNat = 93 from rfl, saveError_none]
        simp
      | cons s1 t1 =>
        obtain ⟨tl, htl⟩ := encodeElems_head (s1 :: t1) (by simp)
        have hih := ih (by simp) f (acc ++ [utf8 s.data]) (by simpa using hf)
        simp only [encodeElems, List.append_assoc, List.cons_append, decodeElems,
          decodeStringValue_encodeString] at hih ⊢
        rw [skipSpace_cons ',' _ rfl]
        simp only [show (',' : Char).toNat = 44 from rfl, if_true, saveError_none]
        have hsk : skipSpace (encodeElems (s1 :: t1) ++ ']' :: rest) =
            encodeElems (s1 :: t1) ++ ']' :: rest := by
          rw [htl]
          exact skipSpace_cons _ _ rfl
        simp only [encodeElems] at hsk
        rw [hsk, hih]
        simp

theorem decodeStringsValue_encodeStrings (depth : Nat) (cur spare : List (List UInt8))
    (l : List String) (rest : List Char) (hd : depth + 1 ≤ maxNestingDepth) :
    decodeStringsValue depth cur spare (encodeStrings l ++ rest) =
      some ((l.map (fun s => utf8 s.data),
        if l = [] then [] else (cur ++ spare).drop l.length), none, rest) := by
  have hnd : ¬ depth + 1 > maxNestingDepth := by omega
  by_cases hl : l = []
  · subst hl
    simp only [encodeStrings, encodeElems, List.nil_append, List.cons_append,
      decodeStringsValue, show ('[' : Char).toNat = 91 from rfl, if_true, hnd, if_false]
    rw [skipSpace_cons ']' _ rfl]
    rfl
  · obtain ⟨tl, htl⟩ := encodeElems_head l hl
    have hdec := decodeElems_encodeElems l hl (encodeElems l ++ ']' :: rest).length
      (depth + 1) (cur ++ spare) [] none rest (by
        have := encodeElems_length l
        simp only [List.length_append]
        omega)
    simp only [encodeStrings, List.cons_append, List.append_assoc, List.nil_append,
      decodeStringsValue, show ('[' : Char).toNat = 91 from rfl, if_true, hnd, if_false]
    rw [htl] at hdec ⊢
    simp only [List.cons_append] at hdec ⊢
    rw [skipSpace_cons dquote _ rfl]
    simp only [show dquote.toNat = 34 from rfl, show ¬ (34 = 93) by decide, if_false]
    rw [hdec]
    simp [hl]

theorem encodeInt_head (i : Int) :
    ∃ c tl, encodeInt i = c :: tl ∧ isSpace c = false := by
  obtain ⟨d, ds, hfmt, hd, _, _, _⟩ := formatNat_spec i.natAbs i.natAbs [] (le_refl _)
  by_cases hneg : i < 0
  · exact ⟨'-', formatNat i.natAbs i.natAbs [], by simp [encodeInt, hneg], rfl⟩
  · refine ⟨d, ds, by simp [encodeInt, hneg, hfmt], ?_⟩
    simp only [isDigit, Bool.and_eq_true, decide_eq_true_eq] at hd
    simp only [isSpace, Bool.or_eq_false_iff, beq_eq_false_iff_ne, ne_eq]
    omega

theorem skipSpace_encode (v : FieldValue) (x : List Char) :
    skipSpace (v.encode ++ x) = v.encode ++ x := by
  cases v with
  | str s => exact skipSpace_cons dquote _ rfl
  | strs l => exact skipSpace_cons '[' _ rfl
  | int i =>
    obtain ⟨c, tl, hc, hsp⟩ := encodeInt_head i
    simp only [FieldValue.encode, hc, List.cons_append]
    exact skipSpace_cons c _ hsp

theorem decodeField_fits (d : Dec) (f : Field) (e : Char) (r : List Char) (hf : f.fits)
    (he : endsNumber e) :
    decodeField 1 d (lookupField f.name.data) (f.value.encode ++ e :: r) =
      some (applyField d f, e :: r) := by
  unfold Field.fits at hf
  unfold applyField
  cases hk : lookupField f.name.data with
  | none => simp [hk] at hf
  | some fid =>
    rw [hk] at hf
    cases hv : f.value with
    | str s =>
      rw [hv] at hf
      cases fid <;> first
        | exact False.elim hf
        | simp [decodeField, FieldValue.encode, decodeStringValue_encodeString, saveError_none]
    | strs l =>
      rw [hv] at hf
      cases fid <;> first
        | exact False.elim hf
        | simp [decodeField, FieldValue.encode,
            decodeStringsValue_encodeStrings 1 _ _ l _ (by decide), saveError_none]
    | int i =>
      rw [hv] at hf
      cases fid <;> first
        | exact False.elim hf
        | simp [decodeField, FieldValue.encode,
            decodeIntValue_encodeInt 1 _ i e r he hf.1 hf.2, saveError_none]

theorem decodeMembers_step (fuel : Nat) (d : Dec) (f : Field) (e : Char) (tail : List Char)
    (hf : f.fits) (he : e.toNat = 44 ∨ e.toNat = 125) :
    decodeMembers (fuel + 1) d (encodeMember f ++ e :: tail) =
      if e.toNat = 44 then decodeMembers fuel (applyField d f) (skipSpace tail)
      else some (applyField d f, tail) := by
  have hends : endsNumber e := by
    unfold endsNumber isDigit
    rcases he with he | he <;> simp [he]
  have hsp : isSpace e = false := by
    unfold isSpace
    rcases he with he | he <;> simp [he]
  have hshape : encodeMember f ++ e :: tail =
      dquote :: (escapeChars f.name.data ++ [dquote] ++ (':' :: (f.value.encode ++ e :: tail))) := by
    simp [encodeMember, encodeString]
  rw [hshape]
  simp only [decodeMembers, show dquote.toNat = 34 from rfl, if_true]
  rw [unquote_encodeString_tail f.name (':' :: (f.value.encode ++ e :: tail))]
  simp only []
  rw [skipSpace_cons ':' _ rfl]
  simp only [show (':' : Char).toNat = 58 from rfl, if_true]
  rw [skipSpace_encode, decodeField_fits d f e tail hf hends]
  simp only []
  rw [skipSpace_cons e _ hsp]
  simp only []
  rcases he with he | he
  · simp [he]
  · simp [he]

theorem encodeMembers_head (fs : List Field) (hne : fs ≠ []) :
    ∃ tl, encodeMembers fs = dquote :: tl := by
  cases fs with
  | nil => exact absurd rfl hne
  | cons f t =>
    cases t with
    | nil => exact ⟨_, rfl⟩
    | cons g t1 => exact ⟨_, rfl⟩

theorem encodeMembers_length (fs : List Field) : fs.length ≤ (encodeMembers fs).length := by
  induction fs with
  | nil => simp
  | cons f t ih =>
    cases t with
    | nil => simp [encodeMembers, encodeMember, encodeString]
    | cons g t1 =>
      simp only [encodeMembers, encodeMember, encodeString, List.length_append,
        List.length_cons] at ih ⊢
      omega

theorem decodeMembers_encodeMembers (fs : List Field) (hne : fs ≠ [])
    (hfit : ∀ f ∈ fs, f.fits) (fuel : Nat) (hf : fs.length ≤ fuel) (d : Dec)
    (rest : List Char) :
    decodeMembers fuel d (encodeMembers fs ++ '}' :: rest) =
      some (fs.foldl applyField d, rest) := by
  induction fs generalizing fuel d with
  | nil => exact absurd rfl hne
  | cons f t ih =>
    cases fuel with
    | zero => simp at hf
    | succ k =>
      have hfits : f.fits := hfit f (List.mem_cons_self _ _)
      cases t with
      | nil =>
        simp only [encodeMembers]
        rw [decodeMembers_step k d f '}' rest hfits (Or.inr rfl)]
        rfl
      | cons g t1 =>
        obtain ⟨tl, htl⟩ := encodeMembers_head (g :: t1) (by simp)
        have hih := ih (by simp) (fun x hx => hfit x (List.mem_cons_of_mem _ hx)) k
          (by simpa using hf) (applyField d f)
        have hshape : encodeMembers (f :: g :: t1) ++ '}' :: rest =
            encodeMember f ++ ',' :: (encodeMembers (g :: t1) ++ '}' :: rest) := by
          simp [encodeMembers]
        rw [hshape, decodeMembers_step k d f ',' _ hfits (Or.inl rfl)]
        have hsk : skipSpace (encodeMembers (g :: t1) ++ '}' :: rest) =
            encodeMembers (g :: t1) ++ '}' :: rest := by
          rw [htl]
          exact skipSpace_cons dquote _ rfl
        rw [hsk, hih]
        rfl

theorem decodeTop_encodeStruct (n0 : RawNotification) (spare : List (List UInt8))
    (fs : List Field) (hne : emittedFields fs ≠ []) (hfit : ∀ f ∈ emittedFields fs, f.fits) :
    decodeTop n0 spare (encodeStruct fs) =
      some (((emittedFields fs).foldl applyField ⟨n0, spare, none⟩).n,
        ((emittedFields fs).foldl applyField ⟨n0, spare, none⟩).err) := by
  obtain ⟨tl, htl⟩ := encodeMembers_head (emittedFields fs) hne
  have hdec := decodeMembers_encodeMembers (emittedFields fs) hne hfit
    (encodeMembers (emittedFields fs) ++ ['}']).length (by
      have := encodeMembers_length (emittedFields fs)
      simp only [List.length_append]
      omega) ⟨n0, spare, none⟩ []
  unfold decodeTop encodeStruct
  rw [skipSpace_cons '{' _ rfl]
  simp only [show ('{' : Char).toNat = 123 from rfl, if_true]
  rw [htl] at hdec ⊢
  simp only [List.cons_append] at hdec ⊢
  rw [skipSpace_cons dquote _ rfl]
  simp only [show dquote.toNat = 34 from rfl, show ¬ (34 = 125) by decide, if_false]
  rw [hdec]
  simp [skipSpace]

theorem string_eq_empty_of_length (s : String) (h : s.data.length = 0) : s = "" := by
  cases s with
  | mk data =>
    have : data = [] := List.length_eq_zero.mp h
    subst this
    rfl

theorem emittedFields_structFields (n : Notification) :
    emittedFields n.structFields =
      [⟨"id", false, .str n.ID⟩, ⟨"type", false, .str n.Typ⟩,
        ⟨"message", false, .str n.Message⟩] ++
      (if n.TargetID = "" then [] else [⟨"targetId", true, .str n.TargetID⟩]) ++
      (if n.GroupIDs = [] then [] else [⟨"groupIds", true, .strs n.GroupIDs⟩]) ++
      [⟨"timestamp", false, .int n.Timestamp⟩] := by
  obtain ⟨id, ty, me, ta, gr, ts⟩ := n
  have hta : ta ≠ "" → (ta.length == 0) = false := by
    intro ht
    rw [beq_eq_false_iff_ne]
    exact fun h => ht (string_eq_empty_of_length ta h)
  have hgr : gr ≠ [] → (gr.length == 0) = false := by
    intro hg
    rw [beq_eq_false_iff_ne]
    exact fun h => hg (List.length_eq_zero.mp h)
  by_cases ht : ta = ""
  · by_cases hg : gr = []
    · subst ht hg
      simp [emittedFields, Notification.structFields, List.filter, FieldValue.isEmpty]
    · subst ht
      simp [emittedFields, Notification.structFields, List.filter, FieldValue.isEmpty,
        hg, hgr hg]
  · by_cases hg : gr = []
    · subst hg
      simp [emittedFields, Notification.structFields, List.filter, FieldValue.isEmpty,
        ht, hta ht]
    · simp [emittedFields, Notification.structFields, List.filter, FieldValue.isEmpty,
        ht, hg, hta ht, hgr hg]

theorem skipElems_succ (fuel depth : Nat) (cs : List Char) :
    skipElems (fuel + 1) depth cs =
      match skipValue fuel depth cs with
      | none => none
      | some r =>
        match skipSpace r with
        | [] => none
        | d :: r1 =>
          if d.toNat = 44 then skipElems fuel depth (skipSpace r1)
          else if d.toNat = 93 then some r1
          else none := by
  rw [skipElems]

theorem skipElems_encodeElems (l : List String) (hl : l ≠ []) (fuel depth : Nat)
    (rest : List Char) (hf : l.length < fuel) :
    skipElems fuel depth (encodeElems l ++ ']' :: rest) = some rest := by
  induction l generalizing fuel with
  | nil => exact absurd rfl hl
  | cons s t ih =>
    cases fuel with
    | zero => simp at hf
    | succ f =>
      cases f with
      | zero => simp at hf
      | succ k =>
        have hstr : ∀ tail : List Char,
            skipValue (k + 1) depth (encodeString s ++ tail) = some tail := by
          intro tail
          have h := unquote_encodeString_tail s tail
          simp only [encodeString, List.cons_append, skipValue, show dquote.toNat = 34 from rfl,
            if_true]
          rw [h]
          rfl
        cases t with
        | nil =>
          simp only [encodeElems, skipElems, hstr]
          rw [skipSpace_cons ']' _ rfl]
          simp [show (']' : Char).toNat = 93 from rfl]
        | cons s1 t1 =>
          obtain ⟨tl, htl⟩ := encodeElems_head (s1 :: t1) (by simp)
          have hih := ih (by simp) (k + 1) (by simpa using hf)
          have hsk : skipSpace (encodeElems (s1 :: t1) ++ ']' :: rest) =
              encodeElems (s1 :: t1) ++ ']' :: rest := by
            rw [htl]
            exact skipSpace_cons dquote _ rfl
          have hshape : encodeElems (s :: s1 :: t1) ++ ']' :: rest =
              encodeString s ++ ',' :: (encodeElems (s1 :: t1) ++ ']' :: rest) := by
            simp [encodeElems]
          rw [hshape, skipElems_succ, hstr]
          simp only []
          rw [skipSpace_cons ',' _ rfl]
          simp only [show (',' : Char).toNat = 44 from rfl, if_true]
          rw [hsk, hih]

theorem skipValue_encode (v : FieldValue) (e : Char) (r : List Char) (he : endsNumber e) :
    skipValue (v.encode ++ e :: r).length 1 (v.encode ++ e :: r) = some (e :: r) := by
  cases v with
  | str s =>
    have h := unquote_encodeString_tail s (e :: r)
    simp only [FieldValue.encode, encodeString, List.cons_append, List.length_cons, skipValue,
      show dquote.toNat = 34 from rfl, if_true]
    rw [h]
    rfl
  | strs l =>
    by_cases hl : l = []
    · subst hl
      simp only [FieldValue.encode, encodeStrings, encodeElems, List.nil_append,
        List.cons_append, List.length_cons, skipValue, show ('[' : Char).toNat = 91 from rfl,
        show ¬ (91 = 34) by decide, if_true, if_false,
        show ¬ (1 + 1 > maxNestingDepth) by decide]
      rw [skipSpace_cons ']' _ rfl]
      rfl
    · obtain ⟨tl, htl⟩ := encodeElems_head l hl
      have hsk := skipElems_encodeElems l hl (encodeElems l ++ ']' :: e :: r).length 2 (e :: r)
        (by
          have := encodeElems_length l
          simp only [List.length_append, List.length_cons]
          omega)
      simp only [FieldValue.encode, encodeStrings, List.cons_append, List.append_assoc,
        List.nil_append, List.length_cons, skipValue, show ('[' : Char).toNat = 91 from rfl,
        show ¬ (91 = 34) by decide, if_true, if_false,
        show ¬ (1 + 1 > maxNestingDepth) by decide]
      rw [htl] at hsk ⊢
      simp only [List.cons_append] at hsk ⊢
      rw [skipSpace_cons dquote _ rfl]
      simp only [show dquote.toNat = 34 from rfl, show ¬ (34 = 93) by decide, if_false]
      simpa using hsk
  | int i =>
    obtain ⟨lit, hfmt, hscan, _, _, hne, hhead⟩ := scanUnsigned_formatNat i.natAbs e r he
    cases lit with
    | nil => exact absurd rfl hne
    | cons d ds =>
      obtain ⟨h45, h110, h34, h91, h123, h116, h102⟩ := hhead d (by simp)
      by_cases hneg : i < 0
      · have hm : ('-' : Char).toNat = 45 := rfl
        simp only [FieldValue.encode, encodeInt, hneg, if_true, hfmt, List.cons_append,
          List.length_cons, skipValue, hm, show ¬ (45 = 34) by decide,
          show ¬ (45 = 91) by decide, show ¬ (45 = 123) by decide,
          show ¬ (45 = 116) by decide, show ¬ (45 = 102) by decide,
          show ¬ (45 = 110) by decide, if_false, scanNumber]
        rw [show d :: (ds ++ e :: r) = (d :: ds) ++ e :: r by rfl, hscan]
        rfl
      · simp only [FieldValue.encode, encodeInt, hneg, if_false, hfmt, List.cons_append,
          List.length_cons, skipValue, h34, h91, h123, h116, h102, h110, scanNumber, h45]
        rw [show d :: (ds ++ e :: r) = (d :: ds) ++ e :: r by rfl, hscan]
        rfl

theorem scanMembers_step (fuel : Nat) (f : Field) (e : Char) (tail : List Char)
    (he : e.toNat = 44 ∨ e.toNat = 125) :
    scanMembers (fuel + 1) (encodeMember f ++ e :: tail) =
      if e.toNat = 44 then
        (scanMembers fuel (skipSpace tail)).map
          (fun p => ((f.name.data, f.value.encode) :: p.1, p.2))
      else some ([(f.name.data, f.value.encode)], tail) := by
  have hends : endsNumber e := by
    unfold endsNumber isDigit
    rcases he with he | he <;> simp [he]
  have hsp : isSpace e = false := by
    unfold isSpace
    rcases he with he | he <;> simp [he]
  have hshape : encodeMember f ++ e :: tail =
      dquote :: (escapeChars f.name.data ++ [dquote] ++ (':' :: (f.value.encode ++ e :: tail))) := by
    simp [encodeMember, encodeString]
  have htake : (f.value.encode ++ e :: tail).take
      ((f.value.encode ++ e :: tail).length - (e :: tail).length) = f.value.encode := by
    have hl : (f.value.encode ++ e :: tail).length - (e :: tail).length =
        f.value.encode.length := by
      simp
    rw [hl]
    simp
  rw [hshape]
  simp only [scanMembers, show dquote.toNat = 34 from rfl, if_true]
  rw [unquote_encodeString_tail f.name (':' :: (f.value.encode ++ e :: tail))]
  simp only []
  rw [skipSpace_cons ':' _ rfl]
  simp only [show (':' : Char).toNat = 58 from rfl, if_true]
  rw [skipSpace_encode, skipValue_encode f.value e tail hends]
  simp only []
  rw [skipSpace_cons e _ hsp]
  simp only [htake]
  rcases he with he | he
  · simp [he]
  · simp [he]

theorem scanMembers_encodeMembers (fs : List Field) (hne : fs ≠ []) (fuel : Nat)
    (hf : fs.length ≤ fuel) (rest : List Char) :
    scanMembers fuel (encodeMembers fs ++ '}' :: rest) =
      some (fs.map (fun f => (f.name.data, f.value.encode)), rest) := by
  induction fs generalizing fuel with
  | nil => exact absurd rfl hne
  | cons f t ih =>
    cases fuel with
    | zero => simp at hf
    | succ k =>
      cases t with
      | nil =>
        simp only [encodeMembers]
        rw [scanMembers_step k f '}' rest (Or.inr rfl)]
        rfl
      | cons g t1 =>
        obtain ⟨tl, htl⟩ := encodeMembers_head (g :: t1) (by simp)
        have hih := ih (by simp) k (by simpa using hf)
        have hshape : encodeMembers (f :: g :: t1) ++ '}' :: rest =
            encodeMember f ++ ',' :: (encodeMembers (g :: t1) ++ '}' :: rest) := by
          simp [encodeMembers]
        rw [hshape, scanMembers_step k f ',' _ (Or.inl rfl)]
        have hsk : skipSpace (encodeMembers (g :: t1) ++ '}' :: rest) =
            encodeMembers (g :: t1) ++ '}' :: rest := by
          rw [htl]
          exact skipSpace_cons dquote _ rfl
        rw [hsk, hih]
        rfl

theorem objectMembers_encodeStruct (fs : List Field) (hne : emittedFields fs ≠ []) :
    objectMembers (encodeStruct fs) =
      some ((emittedFields fs).map (fun f => (f.name.data, f.value.encode))) := by
  obtain ⟨tl, htl⟩ := encodeMembers_head (emittedFields fs) hne
  have hscan := scanMembers_encodeMembers (emittedFields fs) hne
    (encodeMembers (emittedFields fs) ++ ['}']).length (by
      have := encodeMembers_length (emittedFields fs)
      simp only [List.length_append]
      omega) []
  unfold objectMembers encodeStruct
  rw [skipSpace_cons '{' _ rfl]
  simp only [show ('{' : Char).toNat = 123 from rfl, if_true]
  rw [htl] at hscan ⊢
  simp only [List.cons_append] at hscan ⊢
  rw [skipSpace_cons dquote _ rfl]
  simp only [show dquote.toNat = 34 from rfl, show ¬ (34 = 125) by decide, if_false]
  rw [hscan]
  simp [skipSpace]

theorem encodeString_length (s : String) (hs : s ≠ "") : 3 ≤ (encodeString s).length := by
  obtain ⟨data⟩ := s
  cases data with
  | nil => exact absurd rfl hs
  | cons c t =>
    have hlen : 0 < (escapeChar c).length := by
      unfold escapeChar
      split_ifs <;> simp
    simp only [encodeString, escapeChars, List.length_cons, List.length_append,
      List.length_nil]
    omega

/-- C7: `Marshal(n)` returns no error, and its bytes read as a JSON object have
exactly these members, in this order: `"id"`, `"type"`, `"message"`, then
`"targetId"` when and only when `n.TargetID` is not empty, then `"groupIds"` when
and only when `n.GroupIDs` has an element, then `"timestamp"`; the text of each
value is the encoding of the field. The text of a `"targetId"` that is written
is neither `null` nor `""`, the text of a `"groupIds"` that is written is
neither `null` nor `[]`. -/
theorem marshal_omits_empty_optional_fields (n : Notification) :
    n.Marshal.2 = none ∧
    objectMembers n.Marshal.1 = some (
      [("id".data, encodeString n.ID), ("type".data, encodeString n.Typ),
        ("message".data, encodeString n.Message)] ++
      (if n.TargetID = "" then [] else [("targetId".data, encodeString n.TargetID)]) ++
      (if n.GroupIDs = [] then [] else [("groupIds".data, encodeStrings n.GroupIDs)]) ++
      [("timestamp".data, encodeInt n.Timestamp)]) ∧
    ((∃ ms v, objectMembers n.Marshal.1 = some ms ∧ ("targetId".data, v) ∈ ms) ↔
      n.TargetID ≠ "") ∧
    ((∃ ms v, objectMembers n.Marshal.1 = some ms ∧ ("groupIds".data, v) ∈ ms) ↔
      n.GroupIDs ≠ []) ∧
    (n.TargetID ≠ "" → encodeString n.TargetID ≠ ['n', 'u', 'l', 'l'] ∧
      encodeString n.TargetID ≠ [dquote, dquote]) ∧
    (n.GroupIDs ≠ [] → encodeStrings n.GroupIDs ≠ ['n', 'u', 'l', 'l'] ∧
      encodeStrings n.GroupIDs ≠ ['[', ']']) := by
  have hne : emittedFields n.structFields ≠ [] := by
    simp [emittedFields, Notification.structFields, List.filter]
  have hobj : objectMembers n.Marshal.1 = some (
      [("id".data, encodeString n.ID), ("type".data, encodeString n.Typ),
        ("message".data, encodeString n.Message)] ++
      (if n.TargetID = "" then [] else [("targetId".data, encodeString n.TargetID)]) ++
      (if n.GroupIDs = [] then [] else [("groupIds".data, encodeStrings n.GroupIDs)]) ++
      [("timestamp".data, encodeInt n.Timestamp)]) := by
    simp only [Notification.Marshal, objectMembers_encodeStruct n.structFields hne]
    rw [emittedFields_structFields]
    by_cases ht : n.TargetID = "" <;> by_cases hg : n.GroupIDs = [] <;>
      simp [ht, hg, FieldValue.encode]
  have hkey : ∀ a b : String, a ≠ b → a.data ≠ b.data := by
    intro a b hab h
    exact hab (String.ext h)
  refine ⟨rfl, hobj, ?_, ?_, ?_, ?_⟩
  · constructor
    · rintro ⟨ms, v, hms, hv⟩
      rw [hobj] at hms
      have hms1 := (Option.some.inj hms).symm
      subst hms1
      intro ht
      by_cases hg : n.GroupIDs = []
      · simp only [ht, hg, if_true, List.append_nil, List.cons_append, List.nil_append,
          List.mem_cons, List.mem_singleton, List.not_mem_nil, or_false, Prod.mk.injEq] at hv
        rcases hv with h | h | h | h
        · exact hkey "targetId" "id" (by decide) h.1
        · exact hkey "targetId" "type" (by decide) h.1
        · exact hkey "targetId" "message" (by decide) h.1
        · exact hkey "targetId" "timestamp" (by decide) h.1
      · simp only [ht, hg, if_true, if_false, List.append_nil, List.cons_append,
          List.nil_append, List.mem_cons, List.mem_singleton, List.not_mem_nil, or_false,
          Prod.mk.injEq] at hv
        rcases hv with h | h | h | h | h
        · exact hkey "targetId" "id" (by decide) h.1
        · exact hkey "targetId" "type" (by decide) h.1
        · exact hkey "targetId" "message" (by decide) h.1
        · exact hkey "targetId" "groupIds" (by decide) h.1
        · exact hkey "targetId" "timestamp" (by decide) h.1
    · intro ht
      refine ⟨_, encodeString n.TargetID, hobj, ?_⟩
      simp [ht]
  · constructor
    · rintro ⟨ms, v, hms, hv⟩
      rw [hobj] at hms
      have hms1 := (Option.some.inj hms).symm
      subst hms1
      intro hg
      by_cases ht : n.TargetID = ""
      · simp only [ht, hg, if_true, List.append_nil, List.cons_append, List.nil_append,
          List.mem_cons, List.mem_singleton, List.not_mem_nil, or_false, Prod.mk.injEq] at hv
        rcases hv with h | h | h | h
        · exact hkey "groupIds" "id" (by decide) h.1
        · exact hkey "groupIds" "type" (by decide) h.1
        · exact hkey "groupIds" "message" (by decide) h.1
        · exact hkey "groupIds" "timestamp" (by decide) h.1
      · simp only [ht, hg, if_true, if_false, List.append_nil, List.cons_append,
          List.nil_append, List.mem_cons, List.mem_singleton, List.not_mem_nil, or_false,
          Prod.mk.injEq] at hv
        rcases hv with h | h | h | h | h
        · exact hkey "groupIds" "id" (by decide) h.1
        · exact hkey "groupIds" "type" (by decide) h.1
        · exact hkey "groupIds" "message" (by decide) h.1
        · exact hkey "groupIds" "targetId" (by decide) h.1
        · exact hkey "groupIds" "timestamp" (by decide) h.1
    · intro hg
      refine ⟨_, encodeStrings n.GroupIDs, hobj, ?_⟩
      simp [hg]
  · intro hs
    have hlen := encodeString_length n.TargetID hs
    constructor
    · intro h
      have h0 := congrArg List.head? h
      simp [encodeString, dquote] at h0
    · intro h
      have h0 := congrArg List.length h
      simp only [List.length_cons, List.length_nil] at h0
      omega
  · intro hl
    obtain ⟨tl, htl⟩ := encodeElems_head n.GroupIDs hl
    constructor
    · intro h
      have h0 := congrArg List.head? h
      simp [encodeStrings] at h0
    · intro h
      have h0 := congrArg List.length h
      simp [encodeStrings, htl] at h0

/-! ### The round trip of the envelope -/

theorem toNat_ofNat_of_byte (k : Nat) (h : k < 256) : (UInt8.ofNat k).toNat = k :=
  UInt8.toNat_ofNat_of_lt h

theorem char_toNat_valid (c : Char) :
    c.toNat < 0xD800 ∨ (0xDFFF < c.toNat ∧ c.toNat < 0x110000) := by
  have := c.valid
  simp only [UInt32.isValidChar, Nat.isValidChar] at this
  exact this

theorem decodeRune_encodeRune (c : Char) (rest : List UInt8) :
    decodeRune (encodeRune c ++ rest) = some (c, rest) := by
  have hv := char_toNat_valid c
  have hc : ∀ k, k = c.toNat → Char.ofNat k = c := by
    intro k hk
    rw [hk, Char.ofNat_toNat]
  by_cases h1 : c.toNat < 0x80
  · have e0 := toNat_ofNat_of_byte c.toNat (by omega)
    simp only [encodeRune, h1, if_true, List.cons_append, List.nil_append, decodeRune, e0]
    rw [hc _ rfl]
  · by_cases h2 : c.toNat < 0x800
    · have e0 := toNat_ofNat_of_byte (0xC0 + c.toNat / 64) (by omega)
      have e1 := toNat_ofNat_of_byte (0x80 + c.toNat % 64) (by omega)
      have a1 : ¬ (0xC0 + c.toNat / 64 < 0x80) := by omega
      have a2 : ¬ (0xC0 + c.toNat / 64 < 0xC2) := by omega
      have a3 : 0xC0 + c.toNat / 64 < 0xE0 := by omega
      have a4 : isCont (UInt8.ofNat (0x80 + c.toNat % 64)) = true := by
        simp only [isCont, e1, Bool.and_eq_true, decide_eq_true_eq]
        omega
      simp only [encodeRune, h1, h2, if_true, if_false, List.cons_append, List.nil_append,
        decodeRune, e0, e1, a1, a2, a3, a4]
      rw [hc _ (by omega)]
    · by_cases h3 : c.toNat < 0x10000
      · have e0 := toNat_ofNat_of_byte (0xE0 + c.toNat / 4096) (by omega)
        have e1 := toNat_ofNat_of_byte (0x80 + c.toNat / 64 % 64) (by omega)
        have e2 := toNat_ofNat_of_byte (0x80 + c.toNat % 64) (by omega)
        have a1 : ¬ (0xE0 + c.toNat / 4096 < 0x80) := by omega
        have a2 : ¬ (0xE0 + c.toNat / 4096 < 0xC2) := by omega
        have a3 : ¬ (0xE0 + c.toNat / 4096 < 0xE0) := by omega
        have a4 : 0xE0 + c.toNat / 4096 < 0xF0 := by omega
        have a5 : isCont (UInt8.ofNat (0x80 + c.toNat % 64)) = true := by
          simp only [isCont, e2, Bool.and_eq_true, decide_eq_true_eq]
          omega
        have a6 : (if 0xE0 + c.toNat / 4096 = 0xE0 then 0xA0 else 0x80) ≤
            0x80 + c.toNat / 64 % 64 := by
          split <;> omega
        have a7 : 0x80 + c.toNat / 64 % 64 ≤
            (if 0xE0 + c.toNat / 4096 = 0xED then 0x9F else 0xBF) := by
          split <;> omega
        simp only [encodeRune, h1, h2, h3, if_true, if_false, List.cons_append,
          List.nil_append, decodeRune, e0, e1, e2, a1, a2, a3, a4, a5, a6, a7, and_self]
        rw [hc _ (by omega)]
      · have e0 := toNat_ofNat_of_byte (0xF0 + c.toNat / 262144) (by omega)
        have e1 := toNat_ofNat_of_byte (0x80 + c.toNat / 4096 % 64) (by omega)
        have e2 := toNat_ofNat_of_byte (0x80 + c.toNat / 64 % 64) (by omega)
        have e3 := toNat_ofNat_of_byte (0x80 + c.toNat % 64) (by omega)
        have a1 : ¬ (0xF0 + c.toNat / 262144 < 0x80) := by omega
        have a2 : ¬ (0xF0 + c.toNat / 262144 < 0xC2) := by omega
        have a3 : ¬ (0xF0 + c.toNat / 262144 < 0xE0) := by omega
        have a4 : ¬ (0xF0 + c.toNat / 262144 < 0xF0) := by omega
        have a8 : 0xF0 + c.toNat / 262144 < 0xF5 := by omega
        have a5 : isCont (UInt8.ofNat (0x80 + c.toNat % 64)) = true := by
          simp only [isCont, e3, Bool.and_eq_true, decide_eq_true_eq]
          omega
        have a9 : isCont (UInt8.ofNat (0x80 + c.toNat / 64 % 64)) = true := by
          simp only [isCont, e2, Bool.and_eq_true, decide_eq_true_eq]
          omega
        have a6 : (if 0xF0 + c.toNat / 262144 = 0xF0 then 0x90 else 0x80) ≤
            0x80 + c.toNat / 4096 % 64 := by
          split <;> omega
        have a7 : 0x80 + c.toNat / 4096 % 64 ≤
            (if 0xF0 + c.toNat / 262144 = 0xF4 then 0x8F else 0xBF) := by
          split <;> omega
        simp only [encodeRune, h1, h2, h3, if_true, if_false, List.cons_append,
          List.nil_append, decodeRune, e0, e1, e2, e3, a1, a2, a3, a4, a8, a5, a9, a6, a7,
          and_self]
        rw [hc _ (by omega)]

theorem encodeRune_ne_nil (c : Char) : ∃ b tl, encodeRune c = b :: tl := by
  unfold encodeRune
  split_ifs <;> exact ⟨_, _, rfl⟩

theorem utf8_length (s : List Char) : s.length ≤ (utf8 s).length := by
  induction s with
  | nil => simp
  | cons c t ih =>
    obtain ⟨b, tl, hb⟩ := encodeRune_ne_nil c
    simp only [utf8, hb, List.cons_append, List.length_cons, List.length_append]
    omega

theorem utf8_eq_nil (s : List Char) : utf8 s = [] ↔ s = [] := by
  constructor
  · intro h
    have := utf8_length s
    rw [h] at this
    exact List.length_eq_zero.mp (by simpa using this)
  · intro h
    rw [h]
    rfl

theorem decodeRunes_utf8 (s : List Char) (fuel : Nat) (hf : (utf8 s).length ≤ fuel) :
    decodeRunes fuel (utf8 s) = s.map Rune.valid := by
  induction s generalizing fuel with
  | nil => cases fuel <;> rfl
  | cons c t ih =>
    obtain ⟨b, tl, hb⟩ := encodeRune_ne_nil c
    have hdec := decodeRune_encodeRune c (utf8 t)
    cases fuel with
    | zero => simp [utf8, hb] at hf
    | succ k =>
      have hk : (utf8 t).length ≤ k := by
        simp only [utf8, hb, List.cons_append, List.length_cons, List.length_append] at hf
        omega
      simp only [utf8, hb, List.cons_append] at hdec ⊢
      simp only [decodeRunes, hdec, ih k hk, List.map_cons]

theorem runes_utf8 (s : List Char) : runes (utf8 s) = s.map Rune.valid :=
  decodeRunes_utf8 s _ (le_refl _)

theorem decodeText_utf8 (s : List Char) : decodeText (utf8 s) = s := by
  simp [decodeText, runes_utf8, List.map_map, Function.comp_def]

theorem escapeRunes_valid (s : List Char) : escapeRunes (s.map Rune.valid) = escapeChars s := by
  induction s with
  | nil => rfl
  | cons c t ih => simp [escapeRunes, escapeRune, escapeChars, ih]

theorem encodeBytes_utf8 (s : String) : encodeBytes (utf8 s.data) = encodeString s := by
  simp [encodeBytes, encodeString, runes_utf8, escapeRunes_valid]

theorem encodeBytesElems_utf8 (l : List String) :
    encodeBytesElems (l.map (fun g => utf8 g.data)) = encodeElems l := by
  induction l with
  | nil => rfl
  | cons s t ih =>
    cases t with
    | nil => simp [encodeBytesElems, encodeElems, encodeBytes_utf8]
    | cons s1 t1 =>
      simp only [List.map_cons, encodeBytesElems, encodeElems, encodeBytes_utf8] at ih ⊢
      rw [ih]

theorem toRaw_encode (v : FieldValue) : v.toRaw.encode = v.encode := by
  cases v with
  | str s => exact encodeBytes_utf8 s
  | strs l =>
    simp [FieldValue.toRaw, RawValue.encode, FieldValue.encode, encodeBytesList, encodeStrings,
      encodeBytesElems_utf8]
  | int i => rfl

theorem toRaw_isEmpty (v : FieldValue) : v.toRaw.isEmpty = v.isEmpty := by
  cases v with
  | str s =>
    simp only [FieldValue.toRaw, RawValue.isEmpty, FieldValue.isEmpty]
    by_cases h : s.data = []
    · simp [h, utf8]
    · have h1 : utf8 s.data ≠ [] := fun hu => h ((utf8_eq_nil _).mp hu)
      have h2 : (utf8 s.data).length ≠ 0 := fun hl => h1 (List.length_eq_zero.mp hl)
      have h3 : s.data.length ≠ 0 := fun hl => h (List.length_eq_zero.mp hl)
      have h4 : s.length ≠ 0 := h3
      simp [h2, h4]
  | strs l => simp [FieldValue.toRaw, RawValue.isEmpty, FieldValue.isEmpty]
  | int i => rfl

theorem emittedRawFields_toRaw (fs : List Field) :
    emittedRawFields (fs.map Field.toRaw) = (emittedFields fs).map Field.toRaw := by
  induction fs with
  | nil => rfl
  | cons f t ih =>
    have hkeep : (!((Field.toRaw f).omitEmpty && (Field.toRaw f).value.isEmpty)) =
        (!(f.omitEmpty && f.value.isEmpty)) := by
      simp only [Field.toRaw, toRaw_isEmpty]
    unfold emittedRawFields emittedFields at ih ⊢
    rw [List.map_cons, List.filter_cons, List.filter_cons, hkeep, ih]
    split <;> rfl

theorem encodeRawMembers_toRaw (fs : List Field) :
    encodeRawMembers (fs.map Field.toRaw) = encodeMembers fs := by
  induction fs with
  | nil => rfl
  | cons f t ih =>
    cases t with
    | nil => simp [encodeRawMembers, encodeMembers, encodeRawMember, encodeMember, Field.toRaw,
        toRaw_encode]
    | cons g t1 =>
      simp only [List.map_cons, encodeRawMembers, encodeMembers] at ih ⊢
      rw [ih]
      simp [encodeRawMember, encodeMember, Field.toRaw, toRaw_encode]

theorem encodeRawStruct_toRaw (t : Notification) :
    encodeRawStruct t.toRaw.structFields = encodeStruct t.structFields := by
  have hfs : t.toRaw.structFields = t.structFields.map Field.toRaw := rfl
  simp only [encodeRawStruct, encodeStruct, hfs, emittedRawFields_toRaw, encodeRawMembers_toRaw]

/-- The bytes `Marshal` gives for a notification whose strings are texts are the
UTF-8 bytes of the text that `Notification.Marshal` gives. -/
theorem marshal_toRaw (t : Notification) : t.toRaw.Marshal.1 = utf8 t.Marshal.1 := by
  simp only [RawNotification.Marshal, Notification.Marshal, encodeRawStruct_toRaw]

theorem string_data_eq_nil (s : String) : s.data = [] ↔ s = "" :=
  ⟨fun h => String.ext h, fun h => by rw [h]⟩

theorem utf8_data_eq_nil (s : String) : utf8 s.data = [] ↔ s = "" :=
  (utf8_eq_nil s.data).trans (string_data_eq_nil s)

theorem objectMembers_marshal_keys (t : Notification) :
    ∃ ms, objectMembers t.Marshal.1 = some ms ∧
      ((∃ v, ("targetId".data, v) ∈ ms) ↔ t.TargetID ≠ "") ∧
      ((∃ v, ("groupIds".data, v) ∈ ms) ↔ t.GroupIDs ≠ []) := by
  have hne : emittedFields t.structFields ≠ [] := by
    simp [emittedFields, Notification.structFields, List.filter]
  have hkey : ∀ a b : String, a ≠ b → a.data ≠ b.data := by
    intro a b hab h
    exact hab (String.ext h)
  have k1 := hkey "targetId" "id" (by decide)
  have k2 := hkey "targetId" "type" (by decide)
  have k3 := hkey "targetId" "message" (by decide)
  have k4 := hkey "targetId" "groupIds" (by decide)
  have k5 := hkey "targetId" "timestamp" (by decide)
  have g1 := hkey "groupIds" "id" (by decide)
  have g2 := hkey "groupIds" "type" (by decide)
  have g3 := hkey "groupIds" "message" (by decide)
  have g4 := hkey "groupIds" "targetId" (by decide)
  have g5 := hkey "groupIds" "timestamp" (by decide)
  have hobj : objectMembers t.Marshal.1 =
      some ((emittedFields t.structFields).map (fun f => (f.name.data, f.value.encode))) := by
    simp only [Notification.Marshal, objectMembers_encodeStruct t.structFields hne]
  refine ⟨_, hobj, ?_, ?_⟩
  · rw [emittedFields_structFields]
    by_cases ht : t.TargetID = "" <;> by_cases hg : t.GroupIDs = [] <;>
      simp [ht, hg, k1, k2, k3, k4, k5]
  · rw [emittedFields_structFields]
    by_cases ht : t.TargetID = "" <;> by_cases hg : t.GroupIDs = [] <;>
      simp [ht, hg, g1, g2, g3, g4, g5]

theorem unmarshal_marshal_toRaw (r : RawNotification) (spare : List (List UInt8))
    (t : Notification) (hlo : -(2 : Int) ^ 63 ≤ t.Timestamp)
    (hhi : t.Timestamp < (2 : Int) ^ 63) :
    RawNotification.Unmarshal r spare t.toRaw.Marshal.1 =
      (⟨t.toRaw.ID, t.toRaw.Typ, t.toRaw.Message,
        if t.toRaw.TargetID = [] then r.TargetID else t.toRaw.TargetID,
        if t.toRaw.GroupIDs = [] then r.GroupIDs else t.toRaw.GroupIDs,
        t.toRaw.Timestamp⟩, none) := by
  have hid : lookupField "id".data = some FieldId.ID := rfl
  have hty : lookupField "type".data = some FieldId.Typ := rfl
  have hme : lookupField "message".data = some FieldId.Message := rfl
  have hta : lookupField "targetId".data = some FieldId.TargetID := rfl
  have hgr : lookupField "groupIds".data = some FieldId.GroupIDs := rfl
  have hti : lookupField "timestamp".data = some FieldId.Timestamp := rfl
  have hfit : ∀ f ∈ emittedFields t.structFields, f.fits := by
    intro f hf
    have hmem : f ∈ t.structFields := List.mem_of_mem_filter hf
    simp only [Notification.structFields, List.mem_cons, List.mem_singleton,
      List.not_mem_nil, or_false] at hmem
    rcases hmem with rfl | rfl | rfl | rfl | rfl | rfl
    · simp [Field.fits, hid]
    · simp [Field.fits, hty]
    · simp [Field.fits, hme]
    · simp [Field.fits, hta]
    · simp [Field.fits, hgr]
    · simp only [Field.fits, hti]
      exact ⟨hlo, hhi⟩
  have hne : emittedFields t.structFields ≠ [] := by
    simp [emittedFields, Notification.structFields, List.filter]
  have hbytes : t.toRaw.Marshal.1 = utf8 (encodeStruct t.structFields) := marshal_toRaw t
  simp only [RawNotification.Unmarshal, hbytes, decodeText_utf8,
    decodeTop_encodeStruct r spare t.structFields hne hfit]
  rw [emittedFields_structFields]
  have hnil := utf8_data_eq_nil t.TargetID
  by_cases ht : t.TargetID = ""
  · by_cases hg : t.GroupIDs = []
    · simp [ht, hg, applyField, hid, hty, hme, hti, Notification.toRaw, utf8]
    · simp [ht, hg, applyField, hid, hty, hme, hgr, hti, Notification.toRaw, utf8]
  · have hnn : utf8 t.TargetID.data ≠ [] := fun h => ht (hnil.mp h)
    by_cases hg : t.GroupIDs = []
    · simp [ht, hg, hnn, applyField, hid, hty, hme, hta, hti, Notification.toRaw]
    · simp [ht, hg, hnn, applyField, hid, hty, hme, hta, hgr, hti, Notification.toRaw]

/-- C6: for a valid Notification (every string is UTF-8, the timestamp is an
`int64`), `Marshal` returns no error; `Unmarshal` of the bytes into a zero
Notification returns no error and gives a Notification equal to the first in
every field: id, type, message, targetId, groupIds (same elements, same order) and
timestamp, an empty targetId or groupIds being empty again; marshalling the result
gives the same bytes. Into any receiver, `Unmarshal` of the bytes gives the fields
of the first, except that an empty targetId or groupIds leaves the field of the
receiver as it is: the bytes, read as a JSON object, have a member `"targetId"`
when and only when the targetId is not empty, and a member `"groupIds"` when and
only when groupIds has an element. -/
theorem marshal_unmarshal_roundtrip (n : RawNotification) (hvalid : n.Valid) :
    n.Marshal.2 = none ∧
    RawNotification.Unmarshal RawNotification.zero [] n.Marshal.1 = (n, none) ∧
    (RawNotification.Unmarshal RawNotification.zero [] n.Marshal.1).1.Marshal = n.Marshal ∧
    (n.TargetID = [] →
      (RawNotification.Unmarshal RawNotification.zero [] n.Marshal.1).1.TargetID = []) ∧
    (n.GroupIDs = [] →
      (RawNotification.Unmarshal RawNotification.zero [] n.Marshal.1).1.GroupIDs = []) ∧
    (∀ r spare, RawNotification.Unmarshal r spare n.Marshal.1 =
      (⟨n.ID, n.Typ, n.Message, if n.TargetID = [] then r.TargetID else n.TargetID,
        if n.GroupIDs = [] then r.GroupIDs else n.GroupIDs, n.Timestamp⟩, none)) ∧
    (∃ ms, objectMembers (decodeText n.Marshal.1) = some ms ∧
      ((∃ v, ("targetId".data, v) ∈ ms) ↔ n.TargetID ≠ []) ∧
      ((∃ v, ("groupIds".data, v) ∈ ms) ↔ n.GroupIDs ≠ [])) := by
  obtain ⟨t, hn, hlo, hhi⟩ := hvalid
  subst hn
  have hzero : RawNotification.Unmarshal RawNotification.zero [] t.toRaw.Marshal.1 =
      (t.toRaw, none) := by
    rw [unmarshal_marshal_toRaw RawNotification.zero [] t hlo hhi]
    generalize t.toRaw = m
    obtain ⟨id, ty, me, ta, gr, ts⟩ := m
    by_cases ht : ta = [] <;> by_cases hg : gr = [] <;>
      simp [ht, hg, RawNotification.zero]
  refine ⟨rfl, hzero, by rw [hzero], ?_, ?_, ?_, ?_⟩
  · intro h
    rw [hzero]
    exact h
  · intro h
    rw [hzero]
    exact h
  · intro r spare
    exact unmarshal_marshal_toRaw r spare t hlo hhi
  · obtain ⟨ms, hms, h1, h2⟩ := objectMembers_marshal_keys t
    refine ⟨ms, ?_, ?_, ?_⟩
    · rw [marshal_toRaw, decodeText_utf8]
      exact hms
    · rw [h1]
      exact not_congr (utf8_data_eq_nil t.TargetID).symm
    · rw [h2]
      simp [Notification.toRaw]

theorem marshal_unmarshal_roundtrip_witness :
    (Notification.toRaw
      ⟨"a<b", "info", "line\n \"q\"", "", ["g1", "g2"], -1700000000⟩).Valid ∧
    RawNotification.Unmarshal RawNotification.zero []
      (Notification.toRaw
        ⟨"a<b", "info", "line\n \"q\"", "", ["g1", "g2"], -1700000000⟩).Marshal.1 =
      (Notification.toRaw
        ⟨"a<b", "info", "line\n \"q\"", "", ["g1", "g2"], -1700000000⟩, none) :=
  have hv : (Notification.toRaw
      ⟨"a<b", "info", "line\n \"q\"", "", ["g1", "g2"], -1700000000⟩).Valid :=
    ⟨_, rfl, by decide, by decide⟩
  ⟨hv, (marshal_unmarshal_roundtrip _ hv).2.1⟩

/-- Where validity ends: a notification whose id is the single byte 0xFF, which is
not UTF-8. `Marshal` writes the escape of U+FFFD for the byte, and `Unmarshal`
gives the three bytes of U+FFFD for the id. -/
theorem unmarshal_marshal_invalid_utf8 :
    (RawNotification.Marshal ⟨[0xFF], utf8 "t".data, utf8 "m".data, [], [], 0⟩).1 =
      utf8 "\x7b\"id\":\"\\ufffd\",\"type\":\"t\",\"message\":\"m\",\"timestamp\":0\x7d".data ∧
    RawNotification.Unmarshal RawNotification.zero []
      (RawNotification.Marshal ⟨[0xFF], utf8 "t".data, utf8 "m".data, [], [], 0⟩).1 =
      (⟨[0xEF, 0xBF, 0xBD], utf8 "t".data, utf8 "m".data, [], [], 0⟩, none) := by
  decide

end Notify
